import Mathlib

/-!
Verification development for the Granite many-light subsystem
(`renderer/lights/clusterer.cpp`, `renderer/lights/deferred_lights.cpp`,
`Scene::gather_visible_positional_lights`).

The C++ code is shallowly embedded: fixed-size bookkeeping arrays become
functions out of `Nat` together with an explicit array size, 32-bit light
bitmasks become natural numbers (reassignment masks) or finite index sets
(cluster masks), and the float arithmetic of the deferred light binner and
of the CPU clustering tests is carried out over `ℚ`.
-/

namespace Granite

/-- Modelled from the spec: `MaxLights` is declared in `clusterer.hpp`, which
is not among the sources here.  The spec fixes it as a compile-time constant
of at most 32, and the code pins it to exactly 32: the dirty masks are 32-bit
words (`~0u` marks every slot) and the spot atlas is an 8x4 grid of slots. -/
def MaxLights : Nat := 32

/-- Per-kind shadow-atlas bookkeeping of `LightClusterer` (the `cookie`,
`transforms` and `index_remap` arrays, each of `MaxLights` entries).  The
fixed-size arrays are modelled as functions out of `Nat` with the array
size `size` kept explicitly; `transforms` entries are abstract tokens.
A resident cookie of 0 marks an empty slot. -/
structure SlotState where
  size : Nat
  cookie : Nat → Nat
  transforms : Nat → Nat
  index_remap : Nat → Nat

/-- Linear scan over indices `start, start+1, ...` with `fuel` entries left,
returning the first index satisfying `p`.  Models `std::find_if` /
`std::find` over one of the fixed-size slot arrays. -/
def findFirstAux (p : Nat → Bool) : Nat → Nat → Option Nat
  | _, 0 => none
  | start, fuel+1 => if p start then some start else findFirstAux p (start+1) fuel

/-- First index `j < n` with `p j`, scanning from index 0 upward. -/
def findFirst (p : Nat → Bool) (n : Nat) : Option Nat := findFirstAux p 0 n

/-- Index permutation exchanging `i` and `j` (identity elsewhere). -/
def swapArg (i j k : Nat) : Nat := if k = i then j else if k = j then i else k

/-- `std::swap(f[i], f[j])` on an array modelled as a function. -/
def swapFn (f : Nat → Nat) (i j : Nat) : Nat → Nat := fun k => f (swapArg i j k)

/-- The three `swap` calls of `reassign_indices`: exchange slot bookkeeping
(cookie, transform, remap entry) between slots `i` and `j`. -/
def swapState (s : SlotState) (i j : Nat) : SlotState :=
  { s with
    cookie := swapFn s.cookie i j
    transforms := swapFn s.transforms i j
    index_remap := swapFn s.index_remap i j }

/-- The final `type.cookie[i] = type.handles[i]->get_cookie()` store. -/
def setCookie (s : SlotState) (i v : Nat) : SlotState :=
  { s with cookie := fun k => if k = i then v else s.cookie k }

/-- Result of one loop iteration of `reassign_indices`: the updated slot
state, whether bit `i` was set in the returned mask, and how many slot swaps
were performed (0, 1 or 2). -/
structure StepOut where
  state : SlotState
  dirty : Bool
  swaps : Nat

/-- One iteration of the `reassign_indices` loop in `clusterer.cpp` for
active index `i` whose light has cookie `h`:
1. find the first slot whose resident cookie equals `h` and, if it is not
   `i` itself, swap it into position `i`;
2. otherwise (cookie still mismatched and slot `i` not empty) find the first
   empty slot (resident cookie 0) and swap it into position `i`;
3. the slot is dirty iff its resident cookie still differs from `h`;
4. store `h` as slot `i`'s resident cookie regardless. -/
def reassignStep (h i : Nat) (s : SlotState) : StepOut :=
  let fst :=
    match findFirst (fun j => s.cookie j == h) s.size with
    | some j => if i ≠ j then (swapState s i j, 1) else (s, 0)
    | none => (s, 0)
  let s1 := fst.1
  let snd :=
    if h ≠ s1.cookie i ∧ s1.cookie i ≠ 0 then
      match findFirst (fun j => s1.cookie j == 0) s1.size with
      | some j => if i ≠ j then (swapState s1 i j, 1) else (s1, 0)
      | none => (s1, 0)
    else (s1, 0)
  let s2 := snd.1
  ⟨setCookie s2 i h, decide (h ≠ s2.cookie i), fst.2 + snd.2⟩

/-- Result of a full `reassign_indices` run: the final slot state, the
returned dirty bitmask, the total number of swaps performed, and the
`set_shadow_info` calls made (pairs of active index and the transform token
bound from the cache). -/
structure ReassignResult where
  state : SlotState
  mask : Nat
  swaps : Nat
  bound : List (Nat × Nat)

/-- The `reassign_indices` loop starting at active index `i`, with `rest`
the cookies of the remaining active lights (`handles[k]->get_cookie()`). -/
def reassignFrom : List Nat → Nat → SlotState → ReassignResult
  | [], _, s => ⟨s, 0, 0, []⟩
  | h :: rest, i, s =>
    let st := reassignStep h i s
    let r := reassignFrom rest (i+1) st.state
    ⟨r.state,
     (if st.dirty then 2^i else 0) ||| r.mask,
     st.swaps + r.swaps,
     (if st.dirty then [] else [(i, st.state.transforms i)]) ++ r.bound⟩

/-- `reassign_indices` (`clusterer.cpp`): `handles` lists the active lights'
cookies in active-array order. -/
def reassign_indices (handles : List Nat) (s : SlotState) : ReassignResult :=
  reassignFrom handles 0 s

/-- Nonzero resident cookies occur in at most one slot of the table. -/
def NonzeroInj (s : SlotState) : Prop :=
  ∀ j k, j < s.size → k < s.size → s.cookie j ≠ 0 → s.cookie j = s.cookie k → j = k

theorem findFirstAux_eq_none (p : Nat → Bool) (start fuel : Nat)
    (h : ∀ k, start ≤ k → k < start + fuel → p k = false) :
    findFirstAux p start fuel = none := by
  induction fuel generalizing start with
  | zero => rfl
  | succ n ih =>
    have h0 : p start = false := h start le_rfl (by omega)
    simp only [findFirstAux, h0, Bool.false_eq_true, if_false]
    exact ih (start+1) (fun k hk1 hk2 => h k (by omega) (by omega))

theorem findFirstAux_eq_some (p : Nat → Bool) (start fuel j : Nat)
    (h1 : start ≤ j) (h2 : j < start + fuel) (hp : p j = true)
    (hfirst : ∀ k, start ≤ k → k < j → p k = false) :
    findFirstAux p start fuel = some j := by
  induction fuel generalizing start with
  | zero => omega
  | succ n ih =>
    by_cases hs : start = j
    · subst hs
      simp [findFirstAux, hp]
    · have h0 : p start = false := hfirst start le_rfl (by omega)
      simp only [findFirstAux, h0, Bool.false_eq_true, if_false]
      exact ih (start+1) (by omega) (by omega) (fun k hk1 hk2 => hfirst k (by omega) hk2)

theorem findFirstAux_some_spec (p : Nat → Bool) (start fuel j : Nat)
    (h : findFirstAux p start fuel = some j) :
    start ≤ j ∧ j < start + fuel ∧ p j = true ∧ ∀ k, start ≤ k → k < j → p k = false := by
  induction fuel generalizing start with
  | zero => simp [findFirstAux] at h
  | succ n ih =>
    by_cases hs : p start = true
    · simp only [findFirstAux, hs, if_true, Option.some.injEq] at h
      subst h
      exact ⟨le_rfl, by omega, hs, fun k hk1 hk2 => by omega⟩
    · simp only [findFirstAux, hs, if_false] at h
      obtain ⟨a1, a2, a3, a4⟩ := ih (start+1) h
      refine ⟨by omega, by omega, a3, fun k hk1 hk2 => ?_⟩
      by_cases hk : k = start
      · subst hk; simpa using hs
      · exact a4 k (by omega) hk2

theorem findFirstAux_none_spec (p : Nat → Bool) (start fuel : Nat)
    (h : findFirstAux p start fuel = none) :
    ∀ k, start ≤ k → k < start + fuel → p k = false := by
  induction fuel generalizing start with
  | zero => intro k hk1 hk2; omega
  | succ n ih =>
    by_cases hs : p start = true
    · simp [findFirstAux, hs] at h
    · simp only [findFirstAux, hs, if_false] at h
      intro k hk1 hk2
      by_cases hk : k = start
      · subst hk; simpa using hs
      · exact ih (start+1) h k (by omega) (by omega)

theorem findFirst_eq_some (p : Nat → Bool) (n j : Nat)
    (h2 : j < n) (hp : p j = true)
    (hfirst : ∀ k, k < j → p k = false) :
    findFirst p n = some j :=
  findFirstAux_eq_some p 0 n j (Nat.zero_le j) (by omega) hp
    (fun k _ hk2 => hfirst k hk2)

theorem findFirst_some_spec (p : Nat → Bool) (n j : Nat)
    (h : findFirst p n = some j) :
    j < n ∧ p j = true ∧ ∀ k, k < j → p k = false := by
  obtain ⟨_, a2, a3, a4⟩ := findFirstAux_some_spec p 0 n j h
  exact ⟨by omega, a3, fun k hk => a4 k (Nat.zero_le k) hk⟩

theorem findFirst_none_spec (p : Nat → Bool) (n : Nat)
    (h : findFirst p n = none) :
    ∀ k, k < n → p k = false :=
  fun k hk => findFirstAux_none_spec p 0 n h k (Nat.zero_le k) (by omega)

theorem setCookie_self (s : SlotState) (i h : Nat) (hc : s.cookie i = h) :
    setCookie s i h = s := by
  unfold setCookie
  have hfun : (fun k => if k = i then h else s.cookie k) = s.cookie := by
    funext k
    by_cases hk : k = i
    · subst hk; simp [hc]
    · simp [hk]
  rw [hfun]

theorem reassignStep_stable (h i : Nat) (s : SlotState)
    (hi : i < s.size) (hci : s.cookie i = h)
    (hfirst : ∀ j, j < i → s.cookie j ≠ h) :
    reassignStep h i s = ⟨s, false, 0⟩ := by
  have hfind : findFirst (fun j => s.cookie j == h) s.size = some i := by
    apply findFirst_eq_some _ _ _ hi
    · simp [hci]
    · intro k hk
      simp [hfirst k hk]
  simp only [reassignStep, hfind]
  simp [hci, setCookie_self s i h hci]

theorem reassignFrom_static (rest : List Nat) (i : Nat) (s : SlotState)
    (hlen : i + rest.length ≤ s.size)
    (hsame : ∀ k, k < rest.length → s.cookie (i + k) = rest.getD k 0)
    (hprev : ∀ k, k < rest.length → ∀ j, j < i + k → s.cookie j ≠ rest.getD k 0) :
    (reassignFrom rest i s).mask = 0 ∧ (reassignFrom rest i s).swaps = 0 ∧
      (reassignFrom rest i s).state = s := by
  induction rest generalizing i with
  | nil => simp [reassignFrom]
  | cons h rest ih =>
    have hstep : reassignStep h i s = ⟨s, false, 0⟩ := by
      apply reassignStep_stable
      · simp only [List.length_cons] at hlen; omega
      · have := hsame 0 (by simp)
        simpa using this
      · intro j hj
        have := hprev 0 (by simp) j (by simpa using hj)
        simpa using this
    have ihres := ih (i+1)
      (by simp only [List.length_cons] at hlen ⊢; omega)
      (fun k hk => by
        have heq : i + 1 + k = i + (k + 1) := by omega
        have := hsame (k+1) (by simp only [List.length_cons]; omega)
        rw [heq]
        simpa using this)
      (fun k hk j hj => by
        have := hprev (k+1) (by simp only [List.length_cons]; omega) j (by omega)
        simpa using this)
    simp only [reassignFrom, hstep]
    simp [ihres.1, ihres.2.1, ihres.2.2]

theorem nodup_getD_ne (l : List Nat) (hnd : l.Nodup) (j k : Nat)
    (hj : j < l.length) (hk : k < l.length) (hne : j ≠ k) :
    l.getD j 0 ≠ l.getD k 0 := by
  rw [l.getD_eq_getElem 0 hj, l.getD_eq_getElem 0 hk]
  intro hcontra
  exact hne (hnd.getElem_inj_iff.mp hcontra)

/-- C1: over an active light array whose cookies are pairwise distinct,
nonzero, and already stored in the slot-cookie table at the same indices
(the active-light set is unchanged from the previous frame), the
`reassign_indices` run performs no swaps, returns the empty dirty mask 0,
and leaves the slot state untouched. -/
theorem reassign_indices_unchanged_static (handles : List Nat) (s : SlotState)
    (hlen : handles.length ≤ s.size)
    (hnz : ∀ h ∈ handles, h ≠ 0)
    (hnd : handles.Nodup)
    (hsame : ∀ i, i < handles.length → s.cookie i = handles.getD i 0) :
    (reassign_indices handles s).mask = 0 ∧
      (reassign_indices handles s).swaps = 0 ∧
      (reassign_indices handles s).state = s := by
  apply reassignFrom_static handles 0 s (by omega)
  · intro k hk
    simpa using hsame k hk
  · intro k hk j hj
    simp only [Nat.zero_add] at hj
    rw [hsame j (by omega)]
    exact nodup_getD_ne handles hnd j k (by omega) hk (by omega)

/-- A concrete two-light slot table with the active set unchanged from the
previous frame, used to instantiate the C1 theorem. -/
def staticState : SlotState :=
  ⟨32, fun j => if j = 0 then 5 else if j = 1 then 9 else 0, fun j => j, fun j => j⟩

theorem reassign_indices_unchanged_static_app :
    (reassign_indices [5, 9] staticState).mask = 0 ∧
      (reassign_indices [5, 9] staticState).swaps = 0 ∧
      (reassign_indices [5, 9] staticState).state = staticState := by
  apply reassign_indices_unchanged_static
  · decide
  · decide
  · decide
  · intro i hi
    simp only [List.length_cons, List.length_nil] at hi
    interval_cases i <;> rfl

theorem swapArg_lt (i j k n : Nat) (hi : i < n) (hj : j < n) (hk : k < n) :
    swapArg i j k < n := by
  unfold swapArg; split_ifs <;> omega

theorem swapArg_invol (i j k : Nat) : swapArg i j (swapArg i j k) = k := by
  simp only [swapArg]; split_ifs <;> omega

theorem swapArg_eq_self (i j k : Nat) (hki : k ≠ i) (hkj : k ≠ j) : swapArg i j k = k := by
  simp [swapArg, hki, hkj]

theorem swapState_size (s : SlotState) (i j : Nat) : (swapState s i j).size = s.size := rfl

theorem swapState_cookie (s : SlotState) (i j k : Nat) :
    (swapState s i j).cookie k = s.cookie (swapArg i j k) := rfl

theorem setCookie_size (s : SlotState) (i v : Nat) : (setCookie s i v).size = s.size := rfl

theorem setCookie_cookie (s : SlotState) (i v k : Nat) :
    (setCookie s i v).cookie k = if k = i then v else s.cookie k := rfl

theorem nonzeroInj_swapState (s : SlotState) (i j : Nat) (hi : i < s.size) (hj : j < s.size)
    (h : NonzeroInj s) : NonzeroInj (swapState s i j) := by
  intro a b ha hb hnz heq
  simp only [swapState_size] at ha hb
  simp only [swapState_cookie] at hnz heq
  have h2 := h (swapArg i j a) (swapArg i j b) (swapArg_lt i j a s.size hi hj ha)
    (swapArg_lt i j b s.size hi hj hb) hnz heq
  have h3 := congrArg (swapArg i j) h2
  rwa [swapArg_invol, swapArg_invol] at h3

theorem nonzeroInj_setCookie (s : SlotState) (i v : Nat) (hinj : NonzeroInj s)
    (hcase : s.cookie i = v ∨ (v ≠ 0 ∧ ∀ j, j < s.size → s.cookie j ≠ v)) :
    NonzeroInj (setCookie s i v) := by
  rcases hcase with hcv | ⟨hv, habs⟩
  · rwa [setCookie_self s i v hcv]
  · intro a b ha hb hnz heq
    simp only [setCookie_size] at ha hb
    simp only [setCookie_cookie] at hnz heq
    by_cases hai : a = i
    · by_cases hbi : b = i
      · rw [hai, hbi]
      · rw [if_pos hai, if_neg hbi] at heq
        exact absurd heq.symm (habs b hb)
    · by_cases hbi : b = i
      · rw [if_neg hai, if_pos hbi] at heq
        exact absurd heq (habs a ha)
      · rw [if_neg hai] at hnz heq
        rw [if_neg hbi] at heq
        exact hinj a b ha hb hnz heq

theorem reassignStep_inv (h i : Nat) (s : SlotState)
    (hi : i < s.size) (hh : h ≠ 0)
    (hpref : ∀ j, j < i → s.cookie j ≠ h ∧ s.cookie j ≠ 0)
    (hinj : NonzeroInj s) :
    (reassignStep h i s).state.size = s.size ∧
      (reassignStep h i s).state.cookie i = h ∧
      (∀ j, j < i → (reassignStep h i s).state.cookie j = s.cookie j) ∧
      NonzeroInj (reassignStep h i s).state := by
  rcases hfind : findFirst (fun j => s.cookie j == h) s.size with _ | j
  · -- no slot holds cookie h
    have habs : ∀ k, k < s.size → s.cookie k ≠ h := by
      intro k hk
      have := findFirst_none_spec _ _ hfind k hk
      simpa using this
    have hne : h ≠ s.cookie i := fun hc => habs i hi hc.symm
    by_cases hz : s.cookie i = 0
    · -- slot i is empty: the empty-slot search is skipped
      have hstate : (reassignStep h i s).state = setCookie s i h := by
        simp only [reassignStep, hfind]
        simp [hz]
      rw [hstate]
      refine ⟨rfl, by simp [setCookie_cookie], fun j hj => ?_, ?_⟩
      · rw [setCookie_cookie, if_neg (by omega)]
      · exact nonzeroInj_setCookie s i h hinj (Or.inr ⟨hh, habs⟩)
    · -- slot i occupied by a foreign cookie: search for an empty slot
      rcases hfind2 : findFirst (fun j => s.cookie j == 0) s.size with _ | z
      · have hstate : (reassignStep h i s).state = setCookie s i h := by
          simp only [reassignStep, hfind]
          simp [hne, hz, hfind2]
        rw [hstate]
        refine ⟨rfl, by simp [setCookie_cookie], fun j hj => ?_, ?_⟩
        · rw [setCookie_cookie, if_neg (by omega)]
        · exact nonzeroInj_setCookie s i h hinj (Or.inr ⟨hh, habs⟩)
      · obtain ⟨hzlt, hz0, _⟩ := findFirst_some_spec _ _ _ hfind2
        have hz0' : s.cookie z = 0 := by simpa using hz0
        have hiz : i ≠ z := fun hc => hz (hc ▸ hz0')
        have hzi : i < z := by
          rcases Nat.lt_trichotomy i z with hlt | heq | hgt
          · exact hlt
          · exact absurd heq hiz
          · exact absurd hz0' (hpref z hgt).2
        have hstate : (reassignStep h i s).state = setCookie (swapState s i z) i h := by
          simp only [reassignStep, hfind]
          simp [hne, hz, hfind2, hiz]
        rw [hstate]
        refine ⟨rfl, by simp [setCookie_cookie], fun j hj => ?_, ?_⟩
        · rw [setCookie_cookie, if_neg (by omega), swapState_cookie,
            swapArg_eq_self i z j (by omega) (by omega)]
        · refine nonzeroInj_setCookie _ i h (nonzeroInj_swapState s i z hi hzlt hinj)
            (Or.inr ⟨hh, ?_⟩)
          intro k hk
          rw [swapState_size] at hk
          rw [swapState_cookie]
          exact habs _ (swapArg_lt i z k s.size hi hzlt hk)
  · -- some slot j holds cookie h already
    obtain ⟨hjlt, hpj, hbefore⟩ := findFirst_some_spec _ _ _ hfind
    have hcj : s.cookie j = h := by simpa using hpj
    have hji : i ≤ j := by
      by_contra hc
      exact (hpref j (by omega)).1 hcj
    by_cases hij : i = j
    · -- the cookie already sits in slot i
      subst hij
      have hci : s.cookie i = h := hcj
      have hstate : (reassignStep h i s).state = setCookie s i h := by
        simp only [reassignStep, hfind]
        simp [hci]
      rw [hstate, setCookie_self s i h hci]
      exact ⟨rfl, hci, fun j hj => rfl, hinj⟩
    · -- swap the cached slot j into position i
      have hswapci : (swapState s i j).cookie i = h := by
        rw [swapState_cookie]
        have : swapArg i j i = j := by simp [swapArg]
        rw [this, hcj]
      have hstate : (reassignStep h i s).state = setCookie (swapState s i j) i h := by
        simp only [reassignStep, hfind]
        simp [hij, hswapci]
      rw [hstate, setCookie_self _ i h hswapci]
      refine ⟨rfl, hswapci, fun k hk => ?_, nonzeroInj_swapState s i j hi hjlt hinj⟩
      · rw [swapState_cookie, swapArg_eq_self i j k (by omega) (by omega)]

theorem reassignFrom_inv (rest : List Nat) (i : Nat) (s : SlotState)
    (hlen : i + rest.length ≤ s.size)
    (hnz : ∀ h ∈ rest, h ≠ 0)
    (hnd : rest.Nodup)
    (hpref : ∀ j, j < i → s.cookie j ∉ rest ∧ s.cookie j ≠ 0)
    (hinj : NonzeroInj s) :
    (reassignFrom rest i s).state.size = s.size ∧
      (∀ j, j < i → (reassignFrom rest i s).state.cookie j = s.cookie j) ∧
      (∀ k, k < rest.length → (reassignFrom rest i s).state.cookie (i + k) = rest.getD k 0) ∧
      NonzeroInj (reassignFrom rest i s).state := by
  induction rest generalizing i s with
  | nil => simp [reassignFrom, hinj]
  | cons h rest ih =>
    have hi : i < s.size := by simp only [List.length_cons] at hlen; omega
    have hh : h ≠ 0 := hnz h (List.mem_cons_self h rest)
    have hnotmem : h ∉ rest := (List.nodup_cons.mp hnd).1
    obtain ⟨tsize, tci, tpref, tinj⟩ := reassignStep_inv h i s hi hh
      (fun j hj => ⟨fun hc => (hpref j hj).1 (by rw [hc]; exact List.mem_cons_self h rest),
        (hpref j hj).2⟩) hinj
    obtain ⟨rsize, rpref, rproc, rinj⟩ := ih (i+1) (reassignStep h i s).state
      (by rw [tsize]; simp only [List.length_cons] at hlen; omega)
      (fun h' hmem => hnz h' (List.mem_cons_of_mem _ hmem))
      (List.nodup_cons.mp hnd).2
      (fun j hj => by
        rcases Nat.lt_or_ge j i with hji | hji
        · refine ⟨fun hc => (hpref j hji).1 (List.mem_cons_of_mem h ?_), ?_⟩
          · rwa [tpref j hji] at hc
          · rw [tpref j hji]; exact (hpref j hji).2
        · have hje : j = i := by omega
          subst hje
          exact ⟨by rw [tci]; exact hnotmem, by rw [tci]; exact hh⟩)
      tinj
    simp only [reassignFrom]
    refine ⟨rsize.trans tsize, fun j hj => ?_, fun k hk => ?_, rinj⟩
    · rw [rpref j (by omega), tpref j hj]
    · cases k with
      | zero =>
        simp only [Nat.add_zero, List.getD_cons_zero]
        rw [rpref i (by omega), tci]
      | succ k' =>
        have heq : i + (k' + 1) = (i + 1) + k' := by omega
        rw [heq, rproc k' (by simp only [List.length_cons] at hk; omega)]
        simp

/-- C2: for a `reassign_indices` run whose active cookies are pairwise
distinct and nonzero over a table in which each nonzero cookie occupies at
most one slot, afterwards every active index `i` has its light's cookie
resident in slot `i` and in no other slot (the slot assignment is a
bijection onto the active set), and nonzero resident cookies remain
pairwise distinct. -/
theorem reassign_indices_bijective (handles : List Nat) (s : SlotState)
    (hlen : handles.length ≤ s.size)
    (hnz : ∀ h ∈ handles, h ≠ 0)
    (hnd : handles.Nodup)
    (hinj : NonzeroInj s) :
    (∀ i, i < handles.length →
      (reassign_indices handles s).state.cookie i = handles.getD i 0 ∧
      ∀ j, j < s.size → j ≠ i →
        (reassign_indices handles s).state.cookie j ≠ handles.getD i 0) ∧
      NonzeroInj (reassign_indices handles s).state := by
  obtain ⟨rsize, rpref, rproc, rinj⟩ := reassignFrom_inv handles 0 s (by omega) hnz hnd
    (fun j hj => absurd hj (by omega)) hinj
  refine ⟨fun i hi => ⟨by simpa [reassign_indices] using rproc i hi,
    fun j hj hne hcontra => ?_⟩, rinj⟩
  have hci : (reassign_indices handles s).state.cookie i = handles.getD i 0 := by
    simpa [reassign_indices] using rproc i hi
  by_cases hjl : j < handles.length
  · have hcjj : (reassign_indices handles s).state.cookie j = handles.getD j 0 := by
      simpa [reassign_indices] using rproc j hjl
    exact nodup_getD_ne handles hnd j i hjl hi hne (hcjj ▸ hcontra)
  · have hmem : handles.getD i 0 ∈ handles := by
      rw [handles.getD_eq_getElem 0 hi]
      exact List.getElem_mem hi
    have hnz' : (reassign_indices handles s).state.cookie j ≠ 0 := by
      rw [hcontra]
      exact hnz _ hmem
    simp only [reassign_indices] at hnz' hcontra hci
    exact hne (rinj j i (by rw [rsize]; exact hj) (by rw [rsize]; omega) hnz'
      (by rw [hcontra, hci]))

/-- A table with one resident cookie (7 in slot 0) facing a fresh light
with cookie 9, used to instantiate the C2 theorem. -/
def freshState : SlotState :=
  ⟨2, fun j => if j = 0 then 7 else 0, fun j => j, fun j => j⟩

theorem reassign_indices_bijective_app :
    (∀ i, i < ([9] : List Nat).length →
      (reassign_indices [9] freshState).state.cookie i = ([9] : List Nat).getD i 0 ∧
      ∀ j, j < freshState.size → j ≠ i →
        (reassign_indices [9] freshState).state.cookie j ≠ ([9] : List Nat).getD i 0) ∧
      NonzeroInj (reassign_indices [9] freshState).state := by
  apply reassign_indices_bijective
  · decide
  · decide
  · decide
  · intro j k hj hk hnz heq
    simp only [freshState] at hj hk hnz heq
    interval_cases j <;> interval_cases k <;> simp_all

theorem reassignStep_size (h i : Nat) (s : SlotState) :
    (reassignStep h i s).state.size = s.size := by
  rcases hfind : findFirst (fun j => s.cookie j == h) s.size with _ | j
  all_goals simp only [reassignStep, hfind, setCookie_size]
  · split
    · split
      · split <;> rfl
      · rfl
    · rfl
  · split
    · split
      · split
        · split <;> rfl
        · rfl
      · rfl
    · split
      · split
        · split <;> rfl
        · rfl
      · rfl

theorem reassignFrom_size (rest : List Nat) (i : Nat) (s : SlotState) :
    (reassignFrom rest i s).state.size = s.size := by
  induction rest generalizing i s with
  | nil => rfl
  | cons h rest ih =>
    simp only [reassignFrom]
    rw [ih]
    exact reassignStep_size h i s

theorem reassignFrom_append_state (a b : List Nat) (i : Nat) (s : SlotState) :
    (reassignFrom (a ++ b) i s).state =
      (reassignFrom b (i + a.length) (reassignFrom a i s).state).state := by
  induction a generalizing i s with
  | nil => simp [reassignFrom]
  | cons h a ih =>
    simp only [List.cons_append, reassignFrom, List.length_cons, List.append_eq]
    rw [ih (i+1)]
    have heq : i + 1 + a.length = i + (a.length + 1) := by omega
    rw [heq]

theorem reassignFrom_append_mask (a b : List Nat) (i : Nat) (s : SlotState) :
    (reassignFrom (a ++ b) i s).mask =
      (reassignFrom a i s).mask |||
        (reassignFrom b (i + a.length) (reassignFrom a i s).state).mask := by
  induction a generalizing i s with
  | nil => simp [reassignFrom]
  | cons h a ih =>
    simp only [List.cons_append, reassignFrom, List.length_cons, List.append_eq]
    rw [ih (i+1)]
    have heq : i + 1 + a.length = i + (a.length + 1) := by omega
    rw [heq, Nat.or_assoc]

theorem reassignFrom_append_bound (a b : List Nat) (i : Nat) (s : SlotState) :
    (reassignFrom (a ++ b) i s).bound =
      (reassignFrom a i s).bound ++
        (reassignFrom b (i + a.length) (reassignFrom a i s).state).bound := by
  induction a generalizing i s with
  | nil => simp [reassignFrom]
  | cons h a ih =>
    simp only [List.cons_append, reassignFrom, List.length_cons, List.append_eq]
    rw [ih (i+1)]
    have heq : i + 1 + a.length = i + (a.length + 1) := by omega
    rw [heq, List.append_assoc]

theorem reassignFrom_mask_range (rest : List Nat) (i : Nat) (s : SlotState) (b : Nat)
    (h : (reassignFrom rest i s).mask.testBit b = true) :
    i ≤ b ∧ b < i + rest.length := by
  induction rest generalizing i s with
  | nil => simp [reassignFrom, Nat.zero_testBit] at h
  | cons hh rest ih =>
    simp only [reassignFrom, Nat.testBit_or, Bool.or_eq_true] at h
    rcases h with h1 | h2
    · by_cases hd : (reassignStep hh i s).dirty = true
      · rw [if_pos hd] at h1
        have hbi : i = b := by
          by_contra hc
          rw [Nat.testBit_two_pow_of_ne hc] at h1
          exact Bool.false_ne_true h1
        simp only [List.length_cons]
        omega
      · rw [if_neg hd] at h1
        simp [Nat.zero_testBit] at h1
    · have := ih (i+1) _ h2
      simp only [List.length_cons]
      omega

theorem reassignFrom_bound_range (rest : List Nat) (i : Nat) (s : SlotState) (q : Nat × Nat)
    (h : q ∈ (reassignFrom rest i s).bound) :
    i ≤ q.1 ∧ q.1 < i + rest.length := by
  induction rest generalizing i s with
  | nil => simp [reassignFrom] at h
  | cons hh rest ih =>
    simp only [reassignFrom, List.mem_append] at h
    rcases h with h1 | h2
    · by_cases hd : (reassignStep hh i s).dirty = true
      · rw [if_pos hd] at h1
        simp at h1
      · rw [if_neg hd] at h1
        simp only [List.mem_singleton] at h1
        subst h1
        simp only [List.length_cons]
        omega
    · have := ih (i+1) _ h2
      simp only [List.length_cons]
      omega

theorem reassignStep_dirty_iff (h i : Nat) (s : SlotState) (hi : i < s.size) (hh : h ≠ 0) :
    ((reassignStep h i s).dirty = true ↔ ∀ j, j < s.size → s.cookie j ≠ h) := by
  rcases hfind : findFirst (fun j => s.cookie j == h) s.size with _ | j
  · have habs : ∀ k, k < s.size → s.cookie k ≠ h := by
      intro k hk
      have := findFirst_none_spec _ _ hfind k hk
      simpa using this
    have hne : ¬h = s.cookie i := fun hc => habs i hi hc.symm
    have hdirty : (reassignStep h i s).dirty = true := by
      simp only [reassignStep, hfind]
      by_cases hz : s.cookie i = 0
      · simp [hz, hh]
      · rcases hfind2 : findFirst (fun j => s.cookie j == 0) s.size with _ | z
        · simp [hne, hz, hfind2]
        · obtain ⟨hzlt, hz0, _⟩ := findFirst_some_spec _ _ _ hfind2
          have hz0' : s.cookie z = 0 := by simpa using hz0
          by_cases hiz : i = z
          · exact absurd (hiz ▸ hz0') hz
          · have hswz : (swapState s i z).cookie i = s.cookie z := by
              rw [swapState_cookie]
              simp [swapArg]
            simp [hne, hz, hfind2, hiz, hswz, hz0', hh]
    rw [hdirty]
    simp only [true_iff]
    exact habs
  · obtain ⟨hjlt, hpj, _⟩ := findFirst_some_spec _ _ _ hfind
    have hcj : s.cookie j = h := by simpa using hpj
    have hdirty : (reassignStep h i s).dirty = false := by
      simp only [reassignStep, hfind]
      by_cases hij : i = j
      · subst hij
        simp [hcj]
      · have hswapci : (swapState s i j).cookie i = h := by
          rw [swapState_cookie]
          simp [swapArg, hcj]
        simp [hij, hswapci]
    rw [hdirty]
    constructor
    · intro hc
      exact absurd hc (by simp)
    · intro hall
      exact absurd hcj (hall j hjlt)

theorem reassignStep_shape (h i : Nat) (s : SlotState) (hi : i < s.size) :
    ∃ t : SlotState, (reassignStep h i s).state = setCookie t i h ∧ t.size = s.size ∧
      (∀ k, k < s.size → ∃ k', k' < s.size ∧ t.cookie k = s.cookie k') := by
  rcases hfind : findFirst (fun j => s.cookie j == h) s.size with _ | j
  · by_cases hz : s.cookie i = 0
    · refine ⟨s, ?_, rfl, fun k hk => ⟨k, hk, rfl⟩⟩
      simp only [reassignStep, hfind]
      simp [hz]
    · have hne : ¬h = s.cookie i := by
        intro hc
        have := findFirst_none_spec _ _ hfind i hi
        simp [← hc] at this
      rcases hfind2 : findFirst (fun j => s.cookie j == 0) s.size with _ | z
      · refine ⟨s, ?_, rfl, fun k hk => ⟨k, hk, rfl⟩⟩
        simp only [reassignStep, hfind]
        simp [hne, hz, hfind2]
      · obtain ⟨hzlt, hz0, _⟩ := findFirst_some_spec _ _ _ hfind2
        by_cases hiz : i = z
        · refine ⟨s, ?_, rfl, fun k hk => ⟨k, hk, rfl⟩⟩
          simp only [reassignStep, hfind]
          simp [hne, hz, hfind2, hiz]
        · refine ⟨swapState s i z, ?_, rfl, fun k hk => ?_⟩
          · simp only [reassignStep, hfind]
            simp [hne, hz, hfind2, hiz]
          · exact ⟨swapArg i z k, swapArg_lt i z k s.size hi hzlt hk, rfl⟩
  · obtain ⟨hjlt, hpj, _⟩ := findFirst_some_spec _ _ _ hfind
    have hcj : s.cookie j = h := by simpa using hpj
    by_cases hij : i = j
    · subst hij
      refine ⟨s, ?_, rfl, fun k hk => ⟨k, hk, rfl⟩⟩
      simp only [reassignStep, hfind]
      simp [hcj]
    · have hswapci : (swapState s i j).cookie i = h := by
        rw [swapState_cookie]
        simp [swapArg, hcj]
      refine ⟨swapState s i j, ?_, rfl, fun k hk => ?_⟩
      · simp only [reassignStep, hfind]
        simp [hij, hswapci]
      · exact ⟨swapArg i j k, swapArg_lt i j k s.size hi hjlt hk, rfl⟩

theorem reassignStep_cookie_origin (h i : Nat) (s : SlotState) (hi : i < s.size) :
    ∀ j, j < s.size →
      (∃ j', j' < s.size ∧ (reassignStep h i s).state.cookie j = s.cookie j') ∨
        (reassignStep h i s).state.cookie j = h := by
  intro j hj
  obtain ⟨t, ht, _, horig⟩ := reassignStep_shape h i s hi
  rw [ht, setCookie_cookie]
  by_cases hji : j = i
  · rw [if_pos hji]
    exact Or.inr rfl
  · rw [if_neg hji]
    obtain ⟨k', hk', heq⟩ := horig j hj
    exact Or.inl ⟨k', hk', heq⟩

theorem reassignFrom_cookie_origin (rest : List Nat) (i : Nat) (s : SlotState)
    (hlen : i + rest.length ≤ s.size) :
    ∀ j, j < s.size →
      (∃ j', j' < s.size ∧ (reassignFrom rest i s).state.cookie j = s.cookie j') ∨
        (reassignFrom rest i s).state.cookie j ∈ rest := by
  induction rest generalizing i s with
  | nil =>
    intro j hj
    exact Or.inl ⟨j, hj, rfl⟩
  | cons h rest ih =>
    intro j hj
    have hi : i < s.size := by simp only [List.length_cons] at hlen; omega
    have hsize : (reassignStep h i s).state.size = s.size := reassignStep_size h i s
    have step := ih (i+1) (reassignStep h i s).state
      (by rw [hsize]; simp only [List.length_cons] at hlen; omega) j (by rw [hsize]; exact hj)
    simp only [reassignFrom]
    rcases step with ⟨j', hj', heq⟩ | hmem
    · rw [hsize] at hj'
      rcases reassignStep_cookie_origin h i s hi j' hj' with ⟨j'', hj'', heq2⟩ | hh2
      · exact Or.inl ⟨j'', hj'', by rw [heq, heq2]⟩
      · exact Or.inr (by rw [heq, hh2]; exact List.mem_cons_self h rest)
    · exact Or.inr (List.mem_cons_of_mem h hmem)

theorem reassign_indices_testBit (handles : List Nat) (s : SlotState) (i : Nat)
    (hi : i < handles.length) :
    (reassign_indices handles s).mask.testBit i =
      (reassignStep (handles.getD i 0) i
        (reassignFrom (handles.take i) 0 s).state).dirty := by
  simp only [reassign_indices]
  conv_lhs => rw [← List.take_append_drop i handles]
  rw [reassignFrom_append_mask]
  have hlt : (handles.take i).length = i := by rw [List.length_take]; omega
  rw [hlt, List.drop_eq_getElem_cons hi]
  simp only [Nat.zero_add, reassignFrom, Nat.testBit_or]
  have h1 : (reassignFrom (handles.take i) 0 s).mask.testBit i = false := by
    by_contra hc
    have hc' : (reassignFrom (handles.take i) 0 s).mask.testBit i = true := by
      revert hc
      cases (reassignFrom (handles.take i) 0 s).mask.testBit i <;> simp
    have := reassignFrom_mask_range _ _ _ _ hc'
    omega
  have h3 : (reassignFrom (handles.drop (i+1)) (i+1)
      (reassignStep handles[i] i (reassignFrom (handles.take i) 0 s).state).state).mask.testBit
        i = false := by
    by_contra hc
    have hc' : (reassignFrom (handles.drop (i+1)) (i+1)
        (reassignStep handles[i] i
          (reassignFrom (handles.take i) 0 s).state).state).mask.testBit i = true := by
      revert hc
      cases (reassignFrom (handles.drop (i+1)) (i+1)
        (reassignStep handles[i] i
          (reassignFrom (handles.take i) 0 s).state).state).mask.testBit i <;> simp
    have := reassignFrom_mask_range _ _ _ _ hc'
    omega
  rw [h1, h3]
  have hgd : handles.getD i 0 = handles[i] := handles.getD_eq_getElem 0 hi
  rw [hgd]
  by_cases hd : (reassignStep handles[i] i
      (reassignFrom (handles.take i) 0 s).state).dirty = true
  · rw [hd, if_pos rfl]
    simp [Nat.testBit_two_pow_self]
  · have hd' : (reassignStep handles[i] i
        (reassignFrom (handles.take i) 0 s).state).dirty = false := by
      revert hd
      cases (reassignStep handles[i] i (reassignFrom (handles.take i) 0 s).state).dirty <;> simp
    rw [hd']
    simp [Nat.zero_testBit]

theorem reassign_indices_bound_iff (handles : List Nat) (s : SlotState) (i : Nat)
    (hi : i < handles.length) :
    ((∃ t, (i, t) ∈ (reassign_indices handles s).bound) ↔
      (reassignStep (handles.getD i 0) i
        (reassignFrom (handles.take i) 0 s).state).dirty = false) := by
  have hgd : handles.getD i 0 = handles[i] := handles.getD_eq_getElem 0 hi
  have hlt : (handles.take i).length = i := by rw [List.length_take]; omega
  rw [hgd]
  simp only [reassign_indices]
  conv_lhs => rw [← List.take_append_drop i handles]
  simp only [reassignFrom_append_bound, hlt, List.drop_eq_getElem_cons hi, Nat.zero_add,
    reassignFrom, List.mem_append]
  constructor
  · rintro ⟨t, hA | hB | hC⟩
    · have := reassignFrom_bound_range _ _ _ _ hA
      simp only [hlt] at this
      omega
    · by_cases hd : (reassignStep handles[i] i
          (reassignFrom (handles.take i) 0 s).state).dirty = true
      · rw [if_pos hd] at hB
        simp at hB
      · revert hd
        cases (reassignStep handles[i] i
          (reassignFrom (handles.take i) 0 s).state).dirty <;> simp
    · have := reassignFrom_bound_range _ _ _ _ hC
      omega
  · intro hd
    refine ⟨(reassignStep handles[i] i
      (reassignFrom (handles.take i) 0 s).state).state.transforms i, Or.inr (Or.inl ?_)⟩
    rw [hd]
    simp

/-- C3 (amended): with pairwise-distinct nonzero active cookies over a table
whose nonzero cookies are pairwise distinct, active index `i` is marked
dirty exactly when no slot holds light `i`'s cookie at the moment index `i`
is processed (the table state after the first `i` iterations), and a light
whose cookie is in no slot at the start of the run (destroyed and recreated
with a different cookie) is always marked dirty; index `i` is not dirty
exactly when the cached shadow view and transform are bound for it via
`set_shadow_info`.  (The unamended claim judged presence against the table
*before the run*: an earlier dirty light can evict a resident cookie when no
empty slot remains, so a merely-moved light can still be marked dirty.) -/
theorem reassign_dirty_iff_absent_when_processed (handles : List Nat) (s : SlotState)
    (i : Nat)
    (hi : i < handles.length) (hlen : handles.length ≤ s.size)
    (hnz : ∀ h ∈ handles, h ≠ 0) (hnd : handles.Nodup) (hinj : NonzeroInj s) :
    ((reassign_indices handles s).mask.testBit i = true ↔
      (∀ j, j < s.size →
        (reassignFrom (handles.take i) 0 s).state.cookie j ≠ handles.getD i 0)) ∧
    ((∀ j, j < s.size → s.cookie j ≠ handles.getD i 0) →
      (reassign_indices handles s).mask.testBit i = true) ∧
    ((reassign_indices handles s).mask.testBit i = false ↔
      ∃ t, (i, t) ∈ (reassign_indices handles s).bound) := by
  have hmidsize : (reassignFrom (handles.take i) 0 s).state.size = s.size :=
    reassignFrom_size _ _ _
  have hmem : handles.getD i 0 ∈ handles := by
    rw [handles.getD_eq_getElem 0 hi]
    exact List.getElem_mem hi
  have hnzi : handles.getD i 0 ≠ 0 := hnz _ hmem
  have hiff := reassignStep_dirty_iff (handles.getD i 0) i
    (reassignFrom (handles.take i) 0 s).state (by rw [hmidsize]; omega) hnzi
  rw [hmidsize] at hiff
  have htb := reassign_indices_testBit handles s i hi
  have part1 : (reassign_indices handles s).mask.testBit i = true ↔
      ∀ j, j < s.size →
        (reassignFrom (handles.take i) 0 s).state.cookie j ≠ handles.getD i 0 := by
    rw [htb]
    exact hiff
  refine ⟨part1, ?_, ?_⟩
  · intro habs
    rw [part1]
    intro j hj
    rcases reassignFrom_cookie_origin (handles.take i) 0 s
      (by simp only [Nat.zero_add, List.length_take]; omega) j hj with ⟨j', hj', heq⟩ | hmm
    · rw [heq]
      exact habs j' hj'
    · intro hcontra
      rw [hcontra] at hmm
      have hdisj : (handles.take i).Disjoint (handles.drop i) :=
        List.disjoint_of_nodup_append (by rw [List.take_append_drop]; exact hnd)
      have hmem2 : handles.getD i 0 ∈ handles.drop i := by
        rw [List.drop_eq_getElem_cons hi, handles.getD_eq_getElem 0 hi]
        exact List.mem_cons_self _ _
      exact hdisj hmm hmem2
  · rw [reassign_indices_bound_iff handles s i hi, htb]

/-- A full table: every slot holds a distinct nonzero cookie, slot 0 holds
cookie 100.  The active set is a fresh light (cookie 200) followed by the
light whose cookie 100 is cached in slot 0. -/
def fullState : SlotState :=
  ⟨32, fun j => if j < 32 then j + 100 else 0, fun j => j, fun j => j⟩

/-- Counterexample to C3 as stated: all of the claim's hypotheses hold
(distinct nonzero active cookies, pairwise-distinct nonzero resident
cookies) and slot 0 held light 1's cookie (100) before the run, yet the run
marks index 1 dirty: iteration 0 overwrote slot 0 with the fresh cookie 200
because the table had no empty slot, evicting cookie 100. -/
theorem reassign_dirty_despite_cached_slot :
    ([200, 100] : List Nat).Nodup ∧ (∀ h ∈ ([200, 100] : List Nat), h ≠ 0) ∧
      NonzeroInj fullState ∧ ([200, 100] : List Nat).length ≤ fullState.size ∧
      fullState.cookie 0 = 100 ∧
      (reassign_indices [200, 100] fullState).mask.testBit 1 = true := by
  refine ⟨by decide, by decide, ?_, by decide, by decide, by decide⟩
  intro j k hj hk hnzjk heq
  simp only [fullState] at hj hk hnzjk heq
  rw [if_pos hj, if_pos hk] at heq
  omega

/-- A small table caching cookie 7 in slot 0, facing the single light with
cookie 7, used to instantiate the amended C3 theorem. -/
def movedState : SlotState :=
  ⟨2, fun j => if j = 0 then 7 else 0, fun j => j, fun j => j⟩

theorem reassign_dirty_iff_absent_when_processed_app :
    (((reassign_indices [7] movedState).mask.testBit 0 = true ↔
      (∀ j, j < movedState.size →
        (reassignFrom (([7] : List Nat).take 0) 0 movedState).state.cookie j ≠
          ([7] : List Nat).getD 0 0)) ∧
    ((∀ j, j < movedState.size → movedState.cookie j ≠ ([7] : List Nat).getD 0 0) →
      (reassign_indices [7] movedState).mask.testBit 0 = true) ∧
    ((reassign_indices [7] movedState).mask.testBit 0 = false ↔
      ∃ t, (0, t) ∈ (reassign_indices [7] movedState).bound)) := by
  apply reassign_dirty_iff_absent_when_processed
  · decide
  · decide
  · decide
  · decide
  · intro j k hj hk hnzjk heq
    simp only [movedState] at hj hk hnzjk heq
    interval_cases j <;> interval_cases k <;> simp_all

/-- The dirty-mask computation at the head of
`LightClusterer::render_atlas_point` / `render_atlas_spot`:
`uint32_t partial_mask = reassign_indices(type); if (!type.atlas ||
force_update_shadows) partial_mask = ~0u;`.  The full `reassign_indices`
result is returned alongside the mask actually used, so that the
reassignment's side effects (swaps, `set_shadow_info` bindings, cookie
stores) remain observable. -/
def render_atlas_mask (atlas_exists force_update_shadows : Bool)
    (handles : List Nat) (s : SlotState) : Nat × ReassignResult :=
  let r := reassign_indices handles s
  ((if !atlas_exists || force_update_shadows then 4294967295 else r.mask), r)

/-- C4 (amended): when the atlas does not exist yet or the force-update flag
is set, the dirty mask used for shadow rendering is all 32 bits set
(`~0u = 4294967295`); however, steps 1-3 are not bypassed:
`reassign_indices` still runs in full — its cookie searches, empty-slot
searches, swaps and `set_shadow_info` bindings all take effect — and only
its returned mask is replaced by the all-ones override. -/
theorem render_atlas_mask_force (atlas_exists force_update_shadows : Bool)
    (handles : List Nat) (s : SlotState)
    (hforce : atlas_exists = false ∨ force_update_shadows = true) :
    (render_atlas_mask atlas_exists force_update_shadows handles s).1 = 4294967295 ∧
      (render_atlas_mask atlas_exists force_update_shadows handles s).2 =
        reassign_indices handles s := by
  rcases hforce with hf | hf <;> subst hf <;> simp [render_atlas_mask]

/-- A table caching cookie 7 in slot 1 while the single active light also
has cookie 7: reassignment swaps slots 0 and 1 and rebinds the cached
shadow view. -/
def cachedState : SlotState :=
  ⟨32, fun j => if j = 1 then 7 else 0, fun j => j, fun j => j⟩

/-- Counterexample to C4 as stated: under the force-update flag the mask
used is indeed all-ones, but steps 1-3 are not bypassed — the cookie search
of step 1 still performs a swap (swap count 1) and step 3 still binds the
cached shadow view via `set_shadow_info` (binding list `[(0, 1)]`). -/
theorem render_atlas_mask_force_still_reassigns :
    (render_atlas_mask true true [7] cachedState).1 = 4294967295 ∧
      (render_atlas_mask true true [7] cachedState).2.swaps = 1 ∧
      (render_atlas_mask true true [7] cachedState).2.bound = [(0, 1)] := by
  refine ⟨by decide, by decide, by decide⟩

theorem render_atlas_mask_force_app :
    (render_atlas_mask false false [7] cachedState).1 = 4294967295 ∧
      (render_atlas_mask false false [7] cachedState).2 =
        reassign_indices [7] cachedState :=
  render_atlas_mask_force false false [7] cachedState (Or.inl rfl)

/-- The two positional light kinds dispatched in `LightClusterer::refresh`. -/
inductive LightKind where
  | Spot
  | Point
deriving DecidableEq

/-- One scene light as seen by the `refresh` gathering loop: its kind,
whether `frustum.intersects(transform->world_aabb)` holds this frame, and a
stable identity standing for the light object. -/
structure SceneLight where
  kind : LightKind
  visible : Bool
  id : Nat
deriving DecidableEq

/-- Outcome of the gathering loop: the per-kind active arrays (`spots`,
`points`, identified by light id, in append order) and the lights whose
shadow binding was cleared via `set_shadow_info(nullptr, {})`. -/
structure GatherResult where
  spots : List Nat
  points : List Nat
  cleared : List Nat
deriving DecidableEq

/-- One iteration of the light loop in `LightClusterer::refresh`
(`clusterer.cpp`): skip frustum-culled lights; otherwise clear the light's
shadow binding, then append it to its kind's active array unless that
kind's cap is already reached. -/
def gatherStep (max_spot max_point : Nat) (acc : GatherResult) (l : SceneLight) :
    GatherResult :=
  if !l.visible then acc
  else
    match l.kind with
    | LightKind.Spot =>
      let acc1 : GatherResult := { acc with cleared := acc.cleared ++ [l.id] }
      if acc1.spots.length < max_spot then { acc1 with spots := acc1.spots ++ [l.id] }
      else acc1
    | LightKind.Point =>
      let acc1 : GatherResult := { acc with cleared := acc.cleared ++ [l.id] }
      if acc1.points.length < max_point then { acc1 with points := acc1.points ++ [l.id] }
      else acc1

/-- The per-frame light gathering of `LightClusterer::refresh`, starting
from freshly reset active arrays (`points.count = 0; spots.count = 0`). -/
def refreshGather (lights : List SceneLight) (max_spot max_point : Nat) : GatherResult :=
  lights.foldl (gatherStep max_spot max_point) ⟨[], [], []⟩

theorem refreshGather_fold_spots (lights : List SceneLight) (max_spot max_point : Nat)
    (acc : GatherResult) :
    (lights.foldl (gatherStep max_spot max_point) acc).spots =
      acc.spots ++ ((lights.filter (fun l => l.visible && l.kind == LightKind.Spot)).map
        SceneLight.id).take (max_spot - acc.spots.length) := by
  induction lights generalizing acc with
  | nil => simp
  | cons l lights ih =>
    simp only [List.foldl_cons]
    cases hv : l.visible
    · have hstep : gatherStep max_spot max_point acc l = acc := by
        simp [gatherStep, hv]
      rw [hstep, ih, List.filter_cons_of_neg (by simp [hv])]
    · cases hk : l.kind
      case Spot =>
        rw [List.filter_cons_of_pos (by simp [hv, hk])]
        by_cases hcap : acc.spots.length < max_spot
        · have hstep : gatherStep max_spot max_point acc l =
              ⟨acc.spots ++ [l.id], acc.points, acc.cleared ++ [l.id]⟩ := by
            simp [gatherStep, hv, hk, hcap]
          rw [hstep, ih]
          simp only [List.map_cons, List.length_append, List.length_singleton]
          have hsub : max_spot - acc.spots.length = (max_spot - (acc.spots.length + 1)) + 1 := by
            omega
          rw [hsub, List.take_succ_cons, List.append_assoc, List.singleton_append]
        · have hstep : gatherStep max_spot max_point acc l =
              ⟨acc.spots, acc.points, acc.cleared ++ [l.id]⟩ := by
            simp [gatherStep, hv, hk, hcap]
          rw [hstep, ih]
          simp only [List.map_cons]
          have h0 : max_spot - acc.spots.length = 0 := by omega
          simp [h0]
      case Point =>
        rw [List.filter_cons_of_neg (by simp [hk])]
        by_cases hcap : acc.points.length < max_point
        · have hstep : gatherStep max_spot max_point acc l =
              ⟨acc.spots, acc.points ++ [l.id], acc.cleared ++ [l.id]⟩ := by
            simp [gatherStep, hv, hk, hcap]
          rw [hstep, ih]
        · have hstep : gatherStep max_spot max_point acc l =
              ⟨acc.spots, acc.points, acc.cleared ++ [l.id]⟩ := by
            simp [gatherStep, hv, hk, hcap]
          rw [hstep, ih]

theorem refreshGather_fold_points (lights : List SceneLight) (max_spot max_point : Nat)
    (acc : GatherResult) :
    (lights.foldl (gatherStep max_spot max_point) acc).points =
      acc.points ++ ((lights.filter (fun l => l.visible && l.kind == LightKind.Point)).map
        SceneLight.id).take (max_point - acc.points.length) := by
  induction lights generalizing acc with
  | nil => simp
  | cons l lights ih =>
    simp only [List.foldl_cons]
    cases hv : l.visible
    · have hstep : gatherStep max_spot max_point acc l = acc := by
        simp [gatherStep, hv]
      rw [hstep, ih, List.filter_cons_of_neg (by simp [hv])]
    · cases hk : l.kind
      case Point =>
        rw [List.filter_cons_of_pos (by simp [hv, hk])]
        by_cases hcap : acc.points.length < max_point
        · have hstep : gatherStep max_spot max_point acc l =
              ⟨acc.spots, acc.points ++ [l.id], acc.cleared ++ [l.id]⟩ := by
            simp [gatherStep, hv, hk, hcap]
          rw [hstep, ih]
          simp only [List.map_cons, List.length_append, List.length_singleton]
          have hsub : max_point - acc.points.length =
              (max_point - (acc.points.length + 1)) + 1 := by
            omega
          rw [hsub, List.take_succ_cons, List.append_assoc, List.singleton_append]
        · have hstep : gatherStep max_spot max_point acc l =
              ⟨acc.spots, acc.points, acc.cleared ++ [l.id]⟩ := by
            simp [gatherStep, hv, hk, hcap]
          rw [hstep, ih]
          simp only [List.map_cons]
          have h0 : max_point - acc.points.length = 0 := by omega
          simp [h0]
      case Spot =>
        rw [List.filter_cons_of_neg (by simp [hk])]
        by_cases hcap : acc.spots.length < max_spot
        · have hstep : gatherStep max_spot max_point acc l =
              ⟨acc.spots ++ [l.id], acc.points, acc.cleared ++ [l.id]⟩ := by
            simp [gatherStep, hv, hk, hcap]
          rw [hstep, ih]
        · have hstep : gatherStep max_spot max_point acc l =
              ⟨acc.spots, acc.points, acc.cleared ++ [l.id]⟩ := by
            simp [gatherStep, hv, hk, hcap]
          rw [hstep, ih]

theorem refreshGather_fold_cleared (lights : List SceneLight) (max_spot max_point : Nat)
    (acc : GatherResult) :
    (lights.foldl (gatherStep max_spot max_point) acc).cleared =
      acc.cleared ++ (lights.filter (fun l => l.visible)).map SceneLight.id := by
  induction lights generalizing acc with
  | nil => simp
  | cons l lights ih =>
    simp only [List.foldl_cons]
    cases hv : l.visible
    · have hstep : gatherStep max_spot max_point acc l = acc := by
        simp [gatherStep, hv]
      rw [hstep, ih, List.filter_cons_of_neg (by simp [hv])]
    · rw [List.filter_cons_of_pos (by simp [hv])]
      have hcl : (gatherStep max_spot max_point acc l).cleared = acc.cleared ++ [l.id] := by
        cases hk : l.kind
        · by_cases hcap : acc.spots.length < max_spot <;> simp [gatherStep, hv, hk, hcap]
        · by_cases hcap : acc.points.length < max_point <;> simp [gatherStep, hv, hk, hcap]
      have hrest := ih (gatherStep max_spot max_point acc l)
      rw [hrest, hcl, List.map_cons, List.append_assoc, List.singleton_append]

/-- C5: the gathering loop of `LightClusterer::refresh` appends
frustum-visible lights to the active array of their kind in scene-iteration
order and silently drops further lights of a kind once its configured cap is
reached: each kind's active array is exactly the first `max` visible ids of
that kind in scene order (so with 3 visible point lights and
`max_point_lights = 2` the point array holds exactly the first 2, and the
third is absent from the active arrays every downstream clustering and
shadow structure is built from). -/
theorem refreshGather_scene_order_truncation (lights : List SceneLight)
    (max_spot max_point : Nat) :
    (refreshGather lights max_spot max_point).spots =
      ((lights.filter (fun l => l.visible && l.kind == LightKind.Spot)).map
        SceneLight.id).take max_spot ∧
    (refreshGather lights max_spot max_point).points =
      ((lights.filter (fun l => l.visible && l.kind == LightKind.Point)).map
        SceneLight.id).take max_point := by
  constructor
  · rw [refreshGather, refreshGather_fold_spots]
    simp
  · rw [refreshGather, refreshGather_fold_points]
    simp

/-- C10: during `LightClusterer::refresh` every frustum-visible positional
light (of either kind) has its shadow binding cleared via
`set_shadow_info(nullptr, {})` before the per-kind cap is checked: the
cleared list is exactly all visible lights in scene order, independent of
the caps, so even a light dropped because its kind's cap was reached does
not retain the previous frame's shadow binding. -/
theorem refreshGather_clears_all_visible (lights : List SceneLight)
    (max_spot max_point : Nat) :
    (refreshGather lights max_spot max_point).cleared =
      (lights.filter (fun l => l.visible)).map SceneLight.id := by
  rw [refreshGather, refreshGather_fold_cleared]
  simp

/-- `FLT_MAX`, the initial value of the running minimum in
`DeferredLights::refresh`, as an exact rational. -/
def fltMax : ℚ := 340282346638528859811704183484516925440

/-- `DeferredLights::NumClusters` (`deferred_lights.hpp`): 7 depth bins. -/
def NumClusters : Nat := 7

/-- One gathered positional light as consumed by `DeferredLights::refresh`:
the camera-space Z-range returned by `get_z_range` (`znear`, `zfar`), the
depth of its AABB centre along the camera front vector
(`dot(aabb.get_center() - camera_position, camera_front)`), and a stable
identity.  Float arithmetic is modelled over `ℚ`. -/
structure DefLight where
  znear : ℚ
  zfar : ℚ
  depth : ℚ
  id : Nat
deriving DecidableEq

/-- The camera parameters consumed by the binner. -/
structure DefParams where
  z_near : ℚ
  z_far : ℚ
deriving DecidableEq

/-- The clip predicate of `DeferredLights::refresh`:
`range.x < params.z_near || range.y > params.z_far`. -/
def clipTest (p : DefParams) (l : DefLight) : Bool :=
  decide (l.znear < p.z_near) || decide (l.zfar > p.z_far)

/-- C-style float-to-int conversion: truncation toward zero. -/
def ratTrunc (q : ℚ) : ℤ := if 0 ≤ q then ⌊q⌋ else -⌊-q⌋

/-- The bin selector of `DeferredLights::refresh`:
`clamp(int((to_center - cluster_min) * cluster_inv_range), 0,
NumClusters - 1)`. -/
def binIndex (cluster_min cluster_inv_range : ℚ) (l : DefLight) : Nat :=
  (min (max (ratTrunc ((l.depth - cluster_min) * cluster_inv_range)) 0)
    ((NumClusters : Int) - 1)).toNat

/-- `clusters[cluster_index].push_back(light)`. -/
def pushBin (bins : List (List DefLight)) (idx : Nat) (l : DefLight) :
    List (List DefLight) :=
  bins.set idx (bins.getD idx [] ++ [l])

/-- The running minimum `cluster_min` of `DeferredLights::refresh`, seeded
with `FLT_MAX`. -/
def clusterMinOf (visible : List DefLight) : ℚ :=
  visible.foldl (fun m l => min m l.depth) fltMax

/-- The running maximum `cluster_max` of `DeferredLights::refresh`, seeded
with `0.0f`. -/
def clusterMaxOf (visible : List DefLight) : ℚ :=
  visible.foldl (fun m l => max m l.depth) 0

/-- `cluster_inv_range = float(NumClusters) / max(cluster_max - cluster_min,
0.001f)`. -/
def clusterInvOf (visible : List DefLight) : ℚ :=
  (NumClusters : ℚ) / max (clusterMaxOf visible - clusterMinOf visible) (1/1000)

/-- `DeferredLights::refresh` (`deferred_lights.cpp`): split off lights
clipping the near or far plane (`Util::unstable_remove_if`; its reordering
is irrelevant here since only membership and per-bin counts are consumed
downstream, so the split is modelled as a stable partition), then compute
the depth extent of the remaining lights, clamp the extent below by
`0.001`, and push each remaining light into the bin selected by its
AABB-centre depth.  Returns the clipped list and the 7 bins. -/
def deferredRefresh (p : DefParams) (lights : List DefLight) :
    List DefLight × List (List DefLight) :=
  let clips := lights.filter (fun l => clipTest p l)
  let visible := lights.filter (fun l => !clipTest p l)
  let bins0 : List (List DefLight) := List.replicate NumClusters []
  if visible.isEmpty then (clips, bins0)
  else
    (clips,
      visible.foldl
        (fun bs l => pushBin bs (binIndex (clusterMinOf visible) (clusterInvOf visible) l) l)
        bins0)

theorem getD_set_eq {α : Type} (l : List α) (i : Nat) (v d : α) (hi : i < l.length) :
    (l.set i v).getD i d = v := by
  induction l generalizing i with
  | nil => simp at hi
  | cons a l ih =>
    cases i with
    | zero => rfl
    | succ n =>
      simp only [List.set_cons_succ, List.getD_cons_succ]
      exact ih n (by simpa using hi)

theorem getD_set_ne {α : Type} (l : List α) (i j : Nat) (v d : α) (hne : i ≠ j) :
    (l.set i v).getD j d = l.getD j d := by
  induction l generalizing i j with
  | nil => simp
  | cons a l ih =>
    cases i with
    | zero =>
      cases j with
      | zero => exact absurd rfl hne
      | succ m => rfl
    | succ n =>
      cases j with
      | zero => rfl
      | succ m =>
        simp only [List.set_cons_succ, List.getD_cons_succ]
        exact ih n m (by omega)

theorem getD_replicate_nil (n b : Nat) :
    (List.replicate n ([] : List DefLight)).getD b [] = [] := by
  induction n generalizing b with
  | zero => simp
  | succ n ih =>
    cases b with
    | zero => rfl
    | succ m =>
      simp only [List.replicate_succ, List.getD_cons_succ]
      exact ih m

theorem binIndex_lt (cmin cinv : ℚ) (l : DefLight) : binIndex cmin cinv l < 7 := by
  unfold binIndex NumClusters
  have h1 : min (max (ratTrunc ((l.depth - cmin) * cinv)) 0) (((7:Nat) : Int) - 1) ≤ 6 :=
    le_trans (min_le_right _ _) (by norm_num)
  omega

theorem foldl_pushBin_getD (visible : List DefLight) (cmin cinv : ℚ)
    (bins : List (List DefLight)) (hlen : bins.length = 7) (b : Nat) :
    (visible.foldl (fun bs l => pushBin bs (binIndex cmin cinv l) l) bins).getD b [] =
      bins.getD b [] ++ visible.filter (fun l => binIndex cmin cinv l == b) := by
  induction visible generalizing bins with
  | nil => simp
  | cons l rest ih =>
    simp only [List.foldl_cons]
    have hlen' : (pushBin bins (binIndex cmin cinv l) l).length = 7 := by
      simp [pushBin, hlen]
    rw [ih _ hlen']
    by_cases heq : binIndex cmin cinv l = b
    · rw [List.filter_cons_of_pos (by simp [heq])]
      have hset : (pushBin bins (binIndex cmin cinv l) l).getD b [] =
          bins.getD b [] ++ [l] := by
        rw [← heq]
        exact getD_set_eq bins _ _ [] (by rw [hlen]; exact binIndex_lt cmin cinv l)
      rw [hset, List.append_assoc, List.singleton_append]
    · rw [List.filter_cons_of_neg (by simp [heq])]
      have hset : (pushBin bins (binIndex cmin cinv l) l).getD b [] = bins.getD b [] :=
        getD_set_ne bins _ b _ [] heq
      rw [hset]

theorem deferredRefresh_clips (p : DefParams) (lights : List DefLight) :
    (deferredRefresh p lights).1 = lights.filter (fun l => clipTest p l) := by
  simp only [deferredRefresh]
  by_cases he : (lights.filter (fun l => !clipTest p l)).isEmpty <;> simp [he]

theorem deferredRefresh_bins_empty (p : DefParams) (lights : List DefLight) (b : Nat)
    (he : (lights.filter (fun l => !clipTest p l)).isEmpty = true) :
    (deferredRefresh p lights).2.getD b [] = [] := by
  simp only [deferredRefresh, he, if_true]
  exact getD_replicate_nil _ _

theorem deferredRefresh_bins (p : DefParams) (lights : List DefLight) (b : Nat)
    (he : (lights.filter (fun l => !clipTest p l)).isEmpty = false) :
    (deferredRefresh p lights).2.getD b [] =
      (lights.filter (fun l => !clipTest p l)).filter (fun x =>
        binIndex (clusterMinOf (lights.filter (fun l => !clipTest p l)))
          (clusterInvOf (lights.filter (fun l => !clipTest p l))) x == b) := by
  simp only [deferredRefresh, he, Bool.false_eq_true, if_false]
  rw [foldl_pushBin_getD _ _ _ _ (by simp [NumClusters]) b, getD_replicate_nil,
    List.nil_append]

/-- C6: each gathered light whose camera-space Z-range starts before the
near plane or ends beyond the far plane is placed in the clipped list and
in no numbered depth bin, and every remaining light is placed in exactly
one of the 7 depth bins — the one selected from its AABB-centre depth. -/
theorem deferredRefresh_partition (p : DefParams) (lights : List DefLight)
    (l : DefLight) (hl : l ∈ lights) :
    (clipTest p l = true →
      l ∈ (deferredRefresh p lights).1 ∧
      ∀ b, b < 7 → l ∉ (deferredRefresh p lights).2.getD b []) ∧
    (clipTest p l = false →
      l ∉ (deferredRefresh p lights).1 ∧
      ∃ b, b < 7 ∧ l ∈ (deferredRefresh p lights).2.getD b [] ∧
        ∀ b', b' < 7 → b' ≠ b → l ∉ (deferredRefresh p lights).2.getD b' []) := by
  by_cases he : (lights.filter (fun l => !clipTest p l)).isEmpty
  · constructor
    · intro hclip
      refine ⟨?_, fun b hb => ?_⟩
      · rw [deferredRefresh_clips]
        exact List.mem_filter.mpr ⟨hl, hclip⟩
      · rw [deferredRefresh_bins_empty p lights b he]
        simp
    · intro hnoclip
      exfalso
      have hmem : l ∈ lights.filter (fun l => !clipTest p l) :=
        List.mem_filter.mpr ⟨hl, by simp [hnoclip]⟩
      rw [List.isEmpty_iff] at he
      rw [he] at hmem
      simp at hmem
  · have he' : (lights.filter (fun l => !clipTest p l)).isEmpty = false := by
      revert he
      cases (lights.filter (fun l => !clipTest p l)).isEmpty <;> simp
    constructor
    · intro hclip
      refine ⟨?_, fun b hb => ?_⟩
      · rw [deferredRefresh_clips]
        exact List.mem_filter.mpr ⟨hl, hclip⟩
      · rw [deferredRefresh_bins p lights b he']
        intro hmem
        have := (List.mem_filter.mp ((List.mem_filter.mp hmem).1)).2
        rw [hclip] at this
        simp at this
    · intro hnoclip
      have hvis : l ∈ lights.filter (fun l => !clipTest p l) :=
        List.mem_filter.mpr ⟨hl, by simp [hnoclip]⟩
      refine ⟨?_, ?_⟩
      · rw [deferredRefresh_clips]
        intro hmem
        have := (List.mem_filter.mp hmem).2
        rw [hnoclip] at this
        simp at this
      · refine ⟨binIndex (clusterMinOf (lights.filter (fun l => !clipTest p l)))
          (clusterInvOf (lights.filter (fun l => !clipTest p l))) l,
          binIndex_lt _ _ l, ?_, ?_⟩
        · rw [deferredRefresh_bins p lights _ he']
          exact List.mem_filter.mpr ⟨hvis, by simp⟩
        · intro b' hb' hne
          rw [deferredRefresh_bins p lights b' he']
          intro hmem
          have := (List.mem_filter.mp hmem).2
          simp only [beq_iff_eq] at this
          exact hne (this ▸ rfl)

/-- Camera with near plane 0 and far plane 100. -/
def clipParams : DefParams := ⟨0, 100⟩

/-- A light whose Z-range starts before the near plane. -/
def clipLight : DefLight := ⟨-1, 50, 5, 0⟩

/-- A light entirely between the near and far planes. -/
def binnedLight : DefLight := ⟨1, 50, 5, 1⟩

theorem deferredRefresh_partition_app :
    (clipTest clipParams clipLight = true →
      clipLight ∈ (deferredRefresh clipParams [clipLight, binnedLight]).1 ∧
      ∀ b, b < 7 →
        clipLight ∉ (deferredRefresh clipParams [clipLight, binnedLight]).2.getD b []) ∧
    (clipTest clipParams clipLight = false →
      clipLight ∉ (deferredRefresh clipParams [clipLight, binnedLight]).1 ∧
      ∃ b, b < 7 ∧
        clipLight ∈ (deferredRefresh clipParams [clipLight, binnedLight]).2.getD b [] ∧
        ∀ b', b' < 7 → b' ≠ b →
          clipLight ∉ (deferredRefresh clipParams [clipLight, binnedLight]).2.getD b' []) :=
  deferredRefresh_partition clipParams [clipLight, binnedLight] clipLight (by decide)

theorem foldl_min_le_init (xs : List DefLight) (a : ℚ) :
    xs.foldl (fun m l => min m l.depth) a ≤ a := by
  induction xs generalizing a with
  | nil => simp
  | cons x xs ih => exact le_trans (ih (min a x.depth)) (min_le_left _ _)

theorem foldl_min_le_mem (xs : List DefLight) (a : ℚ) (x : DefLight) (hx : x ∈ xs) :
    xs.foldl (fun m l => min m l.depth) a ≤ x.depth := by
  induction xs generalizing a with
  | nil => simp at hx
  | cons y xs ih =>
    rcases List.mem_cons.mp hx with h | h
    · subst h
      exact le_trans (foldl_min_le_init xs _) (min_le_right _ _)
    · exact ih _ h

theorem le_foldl_min (xs : List DefLight) (a c : ℚ) (ha : c ≤ a)
    (hxs : ∀ x ∈ xs, c ≤ x.depth) :
    c ≤ xs.foldl (fun m l => min m l.depth) a := by
  induction xs generalizing a with
  | nil => simpa
  | cons x xs ih =>
    exact ih (min a x.depth) (le_min ha (hxs x (List.mem_cons_self _ _)))
      (fun y hy => hxs y (List.mem_cons_of_mem _ hy))

theorem init_le_foldl_max (xs : List DefLight) (a : ℚ) :
    a ≤ xs.foldl (fun m l => max m l.depth) a := by
  induction xs generalizing a with
  | nil => simp
  | cons x xs ih => exact le_trans (le_max_left _ _) (ih (max a x.depth))

theorem mem_le_foldl_max (xs : List DefLight) (a : ℚ) (x : DefLight) (hx : x ∈ xs) :
    x.depth ≤ xs.foldl (fun m l => max m l.depth) a := by
  induction xs generalizing a with
  | nil => simp at hx
  | cons y xs ih =>
    rcases List.mem_cons.mp hx with h | h
    · subst h
      exact le_trans (le_max_right _ _) (init_le_foldl_max xs _)
    · exact ih _ h

theorem foldl_max_le (xs : List DefLight) (a c : ℚ) (ha : a ≤ c)
    (hxs : ∀ x ∈ xs, x.depth ≤ c) :
    xs.foldl (fun m l => max m l.depth) a ≤ c := by
  induction xs generalizing a with
  | nil => simpa
  | cons x xs ih =>
    exact ih (max a x.depth) (max_le ha (hxs x (List.mem_cons_self _ _)))
      (fun y hy => hxs y (List.mem_cons_of_mem _ hy))

theorem clusterMinOf_le_mem (xs : List DefLight) (x : DefLight) (hx : x ∈ xs) :
    clusterMinOf xs ≤ x.depth :=
  foldl_min_le_mem xs fltMax x hx

theorem le_clusterMinOf (xs : List DefLight) (c : ℚ) (hc : c ≤ fltMax)
    (hxs : ∀ x ∈ xs, c ≤ x.depth) : c ≤ clusterMinOf xs :=
  le_foldl_min xs fltMax c hc hxs

theorem clusterMaxOf_ge_mem (xs : List DefLight) (x : DefLight) (hx : x ∈ xs) :
    x.depth ≤ clusterMaxOf xs :=
  mem_le_foldl_max xs 0 x hx

theorem clusterMaxOf_le (xs : List DefLight) (c : ℚ) (hc : 0 ≤ c)
    (hxs : ∀ x ∈ xs, x.depth ≤ c) : clusterMaxOf xs ≤ c :=
  foldl_max_le xs 0 c hc hxs

theorem length_filter_range_bounds (N lo hi : Nat) :
    ((List.range N).filter (fun k => decide (lo ≤ k ∧ k < hi))).length =
      min hi N - min lo N := by
  induction N with
  | zero => simp
  | succ n ih =>
    rw [List.range_succ, List.filter_append, List.length_append, ih]
    by_cases hmem : lo ≤ n ∧ n < hi
    · have hone : (List.filter (fun k => decide (lo ≤ k ∧ k < hi)) [n]).length = 1 := by
        simp [hmem]
      rw [hone]
      omega
    · have hzero : (List.filter (fun k => decide (lo ≤ k ∧ k < hi)) [n]).length = 0 := by
        simp [hmem]
      rw [hzero]
      omega

theorem length_filter_map_eq {α β : Type} (f : α → β) (P : β → Bool) (xs : List α) :
    ((xs.map f).filter P).length = (xs.filter (fun k => P (f k))).length := by
  induction xs with
  | nil => rfl
  | cons x xs ih =>
    simp only [List.map_cons, List.filter_cons]
    by_cases hp : P (f x) = true
    · simp [hp, ih]
    · simp [hp, ih]

theorem count_bin_eq (N M b : Nat) (hM : 0 < M) (hb : b < 6) :
    ((List.range N).filter (fun k => min (7 * k / M) 6 == b)).length =
      min ((M * (b + 1) + 6) / 7) N - min ((M * b + 6) / 7) N := by
  have hcong : ∀ k ∈ List.range N,
      (min (7 * k / M) 6 == b) =
        decide ((M * b + 6) / 7 ≤ k ∧ k < (M * (b + 1) + 6) / 7) := by
    intro k _
    have hx1 : b ≤ 7 * k / M ↔ M * b ≤ 7 * k := by
      rw [Nat.le_div_iff_mul_le hM, Nat.mul_comm b M]
    have hx2 : 7 * k / M < b + 1 ↔ 7 * k < M * (b + 1) := by
      rw [Nat.div_lt_iff_lt_mul hM, Nat.mul_comm (b + 1) M]
    have hcd : M * (b + 1) = M * b + M := by ring
    rw [Bool.eq_iff_iff]
    simp only [beq_iff_eq, decide_eq_true_eq]
    generalize 7 * k / M = x at hx1 hx2 ⊢
    generalize M * b = c at hx1 hcd ⊢
    generalize M * (b + 1) = d at hx2 hcd ⊢
    omega
  rw [List.filter_congr hcong, length_filter_range_bounds]

theorem count_bin6_eq (N M : Nat) (hM : 0 < M) :
    ((List.range N).filter (fun k => min (7 * k / M) 6 == 6)).length =
      min N N - min ((M * 6 + 6) / 7) N := by
  have hcong : ∀ k ∈ List.range N,
      (min (7 * k / M) 6 == 6) = decide ((M * 6 + 6) / 7 ≤ k ∧ k < N) := by
    intro k hk
    have hkN : k < N := List.mem_range.mp hk
    have hx1 : 6 ≤ 7 * k / M ↔ M * 6 ≤ 7 * k := by
      rw [Nat.le_div_iff_mul_le hM, Nat.mul_comm 6 M]
    rw [Bool.eq_iff_iff]
    simp only [beq_iff_eq, decide_eq_true_eq]
    generalize 7 * k / M = x at hx1 ⊢
    generalize M * 6 = c at hx1 ⊢
    omega
  rw [List.filter_congr hcong, length_filter_range_bounds]

set_option maxHeartbeats 1000000 in
theorem bin_count_val (N M b : Nat) (hN : 2 ≤ N) (hM : M = N - 1) (hb : b < 6) :
    min ((M * (b + 1) + 6) / 7) N - min ((M * b + 6) / 7) N = N / 7 ∨
      min ((M * (b + 1) + 6) / 7) N - min ((M * b + 6) / 7) N = (N + 6) / 7 := by
  have h7 : N % 7 = 0 ∨ N % 7 = 1 ∨ N % 7 = 2 ∨ N % 7 = 3 ∨ N % 7 = 4 ∨ N % 7 = 5 ∨
      N % 7 = 6 := by omega
  interval_cases b <;> rcases h7 with h | h | h | h | h | h | h <;> omega

set_option maxHeartbeats 1000000 in
theorem bin6_count_val (N M : Nat) (hN : 2 ≤ N) (hM : M = N - 1) :
    min N N - min ((M * 6 + 6) / 7) N = N / 7 ∨
      min N N - min ((M * 6 + 6) / 7) N = (N + 6) / 7 := by
  have h7 : N % 7 = 0 ∨ N % 7 = 1 ∨ N % 7 = 2 ∨ N % 7 = 3 ∨ N % 7 = 4 ∨ N % 7 = 5 ∨
      N % 7 = 6 := by omega
  rcases h7 with h | h | h | h | h | h | h <;> omega

theorem binIndex_eval (z_min Δ : ℚ) (M k : Nat) (hM : 0 < M) (hΔ : 0 < Δ) (l : DefLight)
    (hdepth : l.depth = z_min + (k : ℚ) * (Δ / (M : ℚ))) :
    binIndex z_min ((NumClusters : ℚ) / Δ) l = min (7 * k / M) 6 := by
  have hMQ : ((M : ℕ) : ℚ) ≠ 0 := Nat.cast_ne_zero.mpr (by omega)
  have hΔ0 : Δ ≠ 0 := ne_of_gt hΔ
  have hq : (l.depth - z_min) * ((NumClusters : ℚ) / Δ) =
      ((7 * k : ℕ) : ℚ) / ((M : ℕ) : ℚ) := by
    rw [hdepth]
    simp only [NumClusters]
    push_cast
    field_simp
    ring
  unfold binIndex ratTrunc
  rw [hq]
  have hq0 : (0 : ℚ) ≤ ((7 * k : ℕ) : ℚ) / ((M : ℕ) : ℚ) := by positivity
  rw [if_pos hq0]
  have hnfloor : ⌊((7 * k : ℕ) : ℚ) / ((M : ℕ) : ℚ)⌋₊ = 7 * k / M := by
    rw [Nat.floor_div_nat, Nat.floor_natCast]
  have htn : (⌊((7 * k : ℕ) : ℚ) / ((M : ℕ) : ℚ)⌋).toNat =
      ⌊((7 * k : ℕ) : ℚ) / ((M : ℕ) : ℚ)⌋₊ := Int.floor_toNat _
  have hge : 0 ≤ ⌊((7 * k : ℕ) : ℚ) / ((M : ℕ) : ℚ)⌋ := Int.floor_nonneg.mpr hq0
  simp only [NumClusters]
  generalize hfl : ⌊((7 * k : ℕ) : ℚ) / ((M : ℕ) : ℚ)⌋ = F at htn hge
  generalize hnf : ⌊((7 * k : ℕ) : ℚ) / ((M : ℕ) : ℚ)⌋₊ = NF at htn hnfloor
  generalize hdivv : 7 * k / M = x at hnfloor ⊢
  omega

/-- C7 (amended): for `N ≥ 2` non-clipped lights with distinct, equally
spaced nonnegative AABB-centre depths across `[z_min, z_max]`, each of the
7 depth bins receives `⌈N/7⌉` or `⌊N/7⌋` lights — provided the depth extent
`z_max - z_min` is at least the `0.001` clamp floor of `cluster_range` (and
the depths lie within float range).  (The unamended claim, with no lower
bound on the extent, fails: when `z_max - z_min < 0.001` the clamped bin
width exceeds the spread and the upper bins receive no lights.) -/
theorem deferred_even_distribution (p : DefParams) (f : Nat → DefLight)
    (z_min z_max : ℚ) (N : Nat) (hN : 2 ≤ N)
    (hdepth : ∀ k, k < N →
      (f k).depth = z_min + (k : ℚ) * ((z_max - z_min) / ((N : ℚ) - 1)))
    (hnoclip : ∀ k, k < N → clipTest p (f k) = false)
    (hzmin : 0 ≤ z_min) (hext : z_min + 1/1000 ≤ z_max) (hfl : z_max ≤ fltMax) :
    ∀ b, b < 7 →
      (((deferredRefresh p ((List.range N).map f)).2.getD b []).length = N / 7 ∨
        ((deferredRefresh p ((List.range N).map f)).2.getD b []).length = (N + 6) / 7) := by
  intro b hb
  set M := N - 1 with hM0
  have hMpos : 0 < M := by omega
  have hMN : N = M + 1 := by omega
  have hMQ : ((N : ℚ) - 1) = (M : ℚ) := by
    rw [hMN]
    push_cast
    ring
  set Δ := z_max - z_min with hΔdef
  have hΔpos : 0 < Δ := by
    rw [hΔdef]
    linarith
  have hdepth' : ∀ k, k < N → (f k).depth = z_min + (k : ℚ) * (Δ / (M : ℚ)) := by
    intro k hk
    rw [hdepth k hk, hMQ, hΔdef]
  have hvis : ((List.range N).map f).filter (fun l => !clipTest p l) =
      (List.range N).map f := by
    rw [List.filter_eq_self]
    intro l hl
    obtain ⟨k, hk, rfl⟩ := List.mem_map.mp hl
    rw [hnoclip k (List.mem_range.mp hk)]
    rfl
  have hlen : ((List.range N).map f).length = N := by simp
  have hne : ((List.range N).map f).isEmpty = false := by
    cases hemp : ((List.range N).map f).isEmpty
    · rfl
    · rw [List.isEmpty_iff] at hemp
      rw [hemp] at hlen
      simp at hlen
      omega
  have hbounds : ∀ l ∈ (List.range N).map f, z_min ≤ l.depth ∧ l.depth ≤ z_max := by
    intro l hl
    obtain ⟨k, hk, rfl⟩ := List.mem_map.mp hl
    have hkN := List.mem_range.mp hk
    rw [hdepth' k hkN]
    constructor
    · have h0 : 0 ≤ (k : ℚ) * (Δ / (M : ℚ)) := by positivity
      linarith
    · have hkM : (k : ℚ) ≤ (M : ℚ) := by
        have : k ≤ M := by omega
        exact_mod_cast this
      have hdm : 0 ≤ Δ / (M : ℚ) := by positivity
      have h1 : (k : ℚ) * (Δ / (M : ℚ)) ≤ (M : ℚ) * (Δ / (M : ℚ)) :=
        mul_le_mul_of_nonneg_right hkM hdm
      have hMne : ((M : ℕ) : ℚ) ≠ 0 := Nat.cast_ne_zero.mpr (by omega)
      have h2 : (M : ℚ) * (Δ / (M : ℚ)) = Δ := by
        field_simp
      rw [hΔdef] at h1 h2
      linarith
  have hmem0 : f 0 ∈ (List.range N).map f :=
    List.mem_map_of_mem f (List.mem_range.mpr (by omega))
  have hd0 : (f 0).depth = z_min := by
    rw [hdepth' 0 (by omega)]
    norm_num
  have hmemM : f M ∈ (List.range N).map f :=
    List.mem_map_of_mem f (List.mem_range.mpr (by omega))
  have hMne : ((M : ℕ) : ℚ) ≠ 0 := Nat.cast_ne_zero.mpr (by omega)
  have hMmul : (M : ℚ) * (Δ / (M : ℚ)) = Δ := by
    field_simp
  have hdM : (f M).depth = z_max := by
    rw [hdepth' M (by omega), hMmul, hΔdef]
    ring
  have hcmin : clusterMinOf ((List.range N).map f) = z_min := by
    apply le_antisymm
    · have := clusterMinOf_le_mem _ (f 0) hmem0
      rwa [hd0] at this
    · apply le_clusterMinOf
      · calc z_min ≤ z_max := by linarith
          _ ≤ fltMax := hfl
      · intro x hx
        exact (hbounds x hx).1
  have hcmax : clusterMaxOf ((List.range N).map f) = z_max := by
    apply le_antisymm
    · apply clusterMaxOf_le
      · linarith
      · intro x hx
        exact (hbounds x hx).2
    · have := clusterMaxOf_ge_mem _ (f M) hmemM
      rwa [hdM] at this
  have hcinv : clusterInvOf ((List.range N).map f) = (NumClusters : ℚ) / Δ := by
    unfold clusterInvOf
    rw [hcmin, hcmax, ← hΔdef, max_eq_left (by linarith)]
  have hbin := deferredRefresh_bins p ((List.range N).map f) b (by rw [hvis]; exact hne)
  rw [hvis, hcmin, hcinv] at hbin
  rw [hbin, length_filter_map_eq]
  have hcong : ∀ k ∈ List.range N,
      (binIndex z_min ((NumClusters : ℚ) / Δ) (f k) == b) = (min (7 * k / M) 6 == b) := by
    intro k hk
    rw [binIndex_eval z_min Δ M k hMpos hΔpos (f k) (hdepth' k (List.mem_range.mp hk))]
  rw [List.filter_congr hcong]
  interval_cases b
  · rw [count_bin_eq N M 0 hMpos (by omega)]
    exact bin_count_val N M 0 hN hM0 (by omega)
  · rw [count_bin_eq N M 1 hMpos (by omega)]
    exact bin_count_val N M 1 hN hM0 (by omega)
  · rw [count_bin_eq N M 2 hMpos (by omega)]
    exact bin_count_val N M 2 hN hM0 (by omega)
  · rw [count_bin_eq N M 3 hMpos (by omega)]
    exact bin_count_val N M 3 hN hM0 (by omega)
  · rw [count_bin_eq N M 4 hMpos (by omega)]
    exact bin_count_val N M 4 hN hM0 (by omega)
  · rw [count_bin_eq N M 5 hMpos (by omega)]
    exact bin_count_val N M 5 hN hM0 (by omega)
  · rw [count_bin6_eq N M hMpos]
    exact bin6_count_val N M hN hM0

/-- Camera with near plane -1 and far plane 1: no light below clips. -/
def tinyParams : DefParams := ⟨-1, 1⟩

/-- 8 non-clipped lights with distinct depths spread evenly across
`[0, 1/2000]` — an extent below the `0.001` clamp floor. -/
def tinyLights : List DefLight :=
  [⟨0, 0, 0, 0⟩, ⟨0, 0, 1/14000, 1⟩, ⟨0, 0, 2/14000, 2⟩, ⟨0, 0, 3/14000, 3⟩,
   ⟨0, 0, 4/14000, 4⟩, ⟨0, 0, 5/14000, 5⟩, ⟨0, 0, 6/14000, 6⟩, ⟨0, 0, 7/14000, 7⟩]

/-- Evaluation of the bin selector at a concrete depth: used to compute the
binner's output on explicit inputs. -/
theorem binIndex_concrete (cinv zn zf d : ℚ) (i v : Nat) (hv : v < 7)
    (h1 : (v : ℚ) ≤ d * cinv) (h2 : d * cinv < v + 1) :
    binIndex 0 cinv ⟨zn, zf, d, i⟩ = v := by
  unfold binIndex ratTrunc NumClusters
  have hq : (⟨zn, zf, d, i⟩ : DefLight).depth - 0 = d := by
    simp
  rw [hq]
  have h0 : (0 : ℚ) ≤ d * cinv := le_trans (by positivity) h1
  rw [if_pos h0]
  have hfloor : ⌊d * cinv⌋ = (v : ℤ) := by
    rw [Int.floor_eq_iff]
    constructor
    · exact_mod_cast h1
    · push_cast
      exact h2
  rw [hfloor]
  omega

/-- Counterexample to C7 as stated: 8 non-clipped lights with distinct,
equally spaced depths across `[0, 1/2000]` (spacing `1/14000`).  The extent
`1/2000` is below the `0.001` clamp of `cluster_range`, so the effective
bin width stays at `1/7000` and the lights land in bins 0-3 only: bin 4
receives 0 lights, while the claim demands `⌈8/7⌉ = 2` or `⌊8/7⌋ = 1`. -/
theorem deferred_tiny_extent_uneven :
    (∀ l ∈ tinyLights, clipTest tinyParams l = false) ∧
      (∀ k, k < 8 → (tinyLights.getD k ⟨0, 0, 0, 0⟩).depth = (k : ℚ) * (1/14000)) ∧
      ((deferredRefresh tinyParams tinyLights).2.getD 4 []).length = 0 ∧
      (8 : Nat) / 7 = 1 ∧ ((8 : Nat) + 6) / 7 = 2 := by
  have hnoclip : ∀ l ∈ tinyLights, clipTest tinyParams l = false := by
    intro l hl
    fin_cases hl <;>
      · simp only [clipTest, tinyParams, Bool.or_eq_false_iff, decide_eq_false_iff_not]
        norm_num
  have hself : tinyLights.filter (fun l => !clipTest tinyParams l) = tinyLights :=
    List.filter_eq_self.mpr (fun l hl => by rw [hnoclip l hl]; rfl)
  refine ⟨hnoclip, ?_, ?_, by norm_num, by norm_num⟩
  · intro k hk
    interval_cases k <;> norm_num [tinyLights]
  · have he : (tinyLights.filter (fun l => !clipTest tinyParams l)).isEmpty = false := by
      rw [hself]
      rfl
    rw [deferredRefresh_bins tinyParams tinyLights 4 he, hself]
    have hcmin : clusterMinOf tinyLights = 0 := by
      apply le_antisymm
      · have h := clusterMinOf_le_mem tinyLights ⟨0, 0, 0, 0⟩ (by simp [tinyLights])
        simpa using h
      · apply le_clusterMinOf
        · norm_num [fltMax]
        · intro x hx
          fin_cases hx <;> norm_num
    have hcmax : clusterMaxOf tinyLights = 7/14000 := by
      apply le_antisymm
      · apply clusterMaxOf_le
        · norm_num
        · intro x hx
          fin_cases hx <;> norm_num
      · have h := clusterMaxOf_ge_mem tinyLights ⟨0, 0, 7/14000, 7⟩ (by simp [tinyLights])
        simpa using h
    have hcinv : clusterInvOf tinyLights = 7000 := by
      unfold clusterInvOf
      rw [hcmin, hcmax, max_eq_right (by norm_num)]
      norm_num [NumClusters]
    rw [hcmin, hcinv]
    show (List.filter (fun x => binIndex 0 7000 x == 4) tinyLights).length = 0
    have hb0 : binIndex 0 7000 ⟨0, 0, 0, 0⟩ = 0 :=
      binIndex_concrete 7000 0 0 0 0 0 (by norm_num) (by norm_num) (by norm_num)
    have hb1 : binIndex 0 7000 ⟨0, 0, 1/14000, 1⟩ = 0 :=
      binIndex_concrete 7000 0 0 (1/14000) 1 0 (by norm_num) (by norm_num) (by norm_num)
    have hb2 : binIndex 0 7000 ⟨0, 0, 2/14000, 2⟩ = 1 :=
      binIndex_concrete 7000 0 0 (2/14000) 2 1 (by norm_num) (by norm_num) (by norm_num)
    have hb3 : binIndex 0 7000 ⟨0, 0, 3/14000, 3⟩ = 1 :=
      binIndex_concrete 7000 0 0 (3/14000) 3 1 (by norm_num) (by norm_num) (by norm_num)
    have hb4 : binIndex 0 7000 ⟨0, 0, 4/14000, 4⟩ = 2 :=
      binIndex_concrete 7000 0 0 (4/14000) 4 2 (by norm_num) (by norm_num) (by norm_num)
    have hb5 : binIndex 0 7000 ⟨0, 0, 5/14000, 5⟩ = 2 :=
      binIndex_concrete 7000 0 0 (5/14000) 5 2 (by norm_num) (by norm_num) (by norm_num)
    have hb6 : binIndex 0 7000 ⟨0, 0, 6/14000, 6⟩ = 3 :=
      binIndex_concrete 7000 0 0 (6/14000) 6 3 (by norm_num) (by norm_num) (by norm_num)
    have hb7 : binIndex 0 7000 ⟨0, 0, 7/14000, 7⟩ = 3 :=
      binIndex_concrete 7000 0 0 (7/14000) 7 3 (by norm_num) (by norm_num) (by norm_num)
    simp only [tinyLights, List.filter_cons, List.filter_nil, hb0, hb1, hb2, hb3, hb4,
      hb5, hb6, hb7]
    decide

theorem deferred_even_distribution_app :
    (((deferredRefresh tinyParams
        ((List.range 8).map (fun k : Nat => (⟨0, 0, (k : ℚ) / 7, k⟩ : DefLight)))).2.getD 0
          []).length = 8 / 7 ∨
      ((deferredRefresh tinyParams
        ((List.range 8).map (fun k : Nat => (⟨0, 0, (k : ℚ) / 7, k⟩ : DefLight)))).2.getD 0
          []).length = (8 + 6) / 7) := by
  apply deferred_even_distribution tinyParams
    (fun k : Nat => (⟨0, 0, (k : ℚ) / 7, k⟩ : DefLight)) 0 1 8
  · norm_num
  · intro k hk
    show (k : ℚ) / 7 = 0 + (k : ℚ) * ((1 - 0) / ((8 : ℚ) - 1))
    norm_num
    try ring
  · intro k hk
    simp only [clipTest, tinyParams, Bool.or_eq_false_iff, decide_eq_false_iff_not]
    norm_num
  · norm_num
  · norm_num
  · norm_num [fltMax]
  · norm_num

/-- A 3-component float vector (muglm `vec3`) over `ℚ`. -/
structure Vec3 where
  x : ℚ
  y : ℚ
  z : ℚ

/-- Componentwise addition. -/
def Vec3.add (a b : Vec3) : Vec3 := ⟨a.x + b.x, a.y + b.y, a.z + b.z⟩

/-- Componentwise subtraction. -/
def Vec3.sub (a b : Vec3) : Vec3 := ⟨a.x - b.x, a.y - b.y, a.z - b.z⟩

/-- Componentwise multiplication (muglm `vec3 * vec3`). -/
def Vec3.mul (a b : Vec3) : Vec3 := ⟨a.x * b.x, a.y * b.y, a.z * b.z⟩

/-- Scalar multiplication (`v *= s`). -/
def Vec3.scale (c : ℚ) (a : Vec3) : Vec3 := ⟨c * a.x, c * a.y, c * a.z⟩

/-- Dot product. -/
def Vec3.dot (a b : Vec3) : ℚ := a.x * b.x + a.y * b.y + a.z * b.z

instance instAddVec3 : Add Vec3 := ⟨Vec3.add⟩

instance instSubVec3 : Sub Vec3 := ⟨Vec3.sub⟩

instance instMulVec3 : Mul Vec3 := ⟨Vec3.mul⟩

/-- A 4x4 float matrix over `ℚ` (row-major entries). -/
structure Mat4 where
  m00 : ℚ
  m01 : ℚ
  m02 : ℚ
  m03 : ℚ
  m10 : ℚ
  m11 : ℚ
  m12 : ℚ
  m13 : ℚ
  m20 : ℚ
  m21 : ℚ
  m22 : ℚ
  m23 : ℚ
  m30 : ℚ
  m31 : ℚ
  m32 : ℚ
  m33 : ℚ

/-- `(m * vec4(v, 1.0)).xyz()` — no perspective division. -/
def Mat4.applyPoint (m : Mat4) (v : Vec3) : Vec3 :=
  ⟨m.m00 * v.x + m.m01 * v.y + m.m02 * v.z + m.m03,
   m.m10 * v.x + m.m11 * v.y + m.m12 * v.z + m.m13,
   m.m20 * v.x + m.m21 * v.y + m.m22 * v.z + m.m23⟩

/-- `LightClusterer::CPUGlobalAccelState`: light-independent data
precomputed in `build_cluster_cpu` plus the per-light acceleration arrays
(modelled as functions out of the light index).  `sqrtQ` stands for the
`sqrtf` of the spot test, which has no exact rational counterpart; the
claims proved here do not depend on its values. -/
structure CPUGlobalAccelState where
  inverse_cluster_transform : Mat4
  inv_res : Vec3
  radius : ℚ
  spot_position : Nat → Vec3
  spot_direction : Nat → Vec3
  spot_size : Nat → ℚ
  spot_angle_cos : Nat → ℚ
  spot_angle_sin : Nat → ℚ
  point_position : Nat → Vec3
  point_size : Nat → ℚ
  sqrtQ : ℚ → ℚ

/-- `LightClusterer::CPULocalAccelState`: per-slice data. -/
structure CPULocalAccelState where
  world_scale_factor : ℚ
  z_bias : ℚ
  cube_radius : ℚ

/-- A `uvec2` light bitmask pair (spot word, point word), modelled as the
sets of set bit positions. -/
structure ClusterMask where
  spot : Finset Nat
  point : Finset Nat
deriving DecidableEq

/-- The cell centre computed at the head of `cluster_lights_cpu`:
`view_space = vec3(2,2,0.5) * (vec3(x,y,z) + vec3(0.5*scale)) * inv_res +
vec3(-1,-1,z_bias); view_space *= world_scale_factor;
cube_center = (inverse_cluster_transform * vec4(view_space, 1)).xyz()`. -/
def cellCenter (state : CPUGlobalAccelState) (local_state : CPULocalAccelState)
    (x y z : ℤ) (scale : ℚ) : Vec3 :=
  let view_space :=
    (⟨2, 2, 1/2⟩ : Vec3) *
        ((⟨(x : ℚ), (y : ℚ), (z : ℚ)⟩ + ⟨scale/2, scale/2, scale/2⟩) * state.inv_res) +
      ⟨-1, -1, local_state.z_bias⟩
  state.inverse_cluster_transform.applyPoint
    (Vec3.scale local_state.world_scale_factor view_space)

/-- `cube_radius = local_state.cube_radius * scale`. -/
def cellRadius (local_state : CPULocalAccelState) (scale : ℚ) : ℚ :=
  local_state.cube_radius * scale

/-- The sphere/cone culling test of `cluster_lights_cpu` for spot light
`i` (the `continue` branches return `false`). -/
def spot_test (state : CPUGlobalAccelState) (cube_center : Vec3) (cube_radius : ℚ)
    (i : Nat) : Bool :=
  let V := cube_center - state.spot_position i
  let V_sq := Vec3.dot V V
  let V1_len := Vec3.dot V (state.spot_direction i)
  if V1_len > cube_radius + state.spot_size i then false
  else if -V1_len > cube_radius then false
  else
    let V2_len := state.sqrtQ (max (V_sq - V1_len * V1_len) 0)
    let distance_closest_point :=
      state.spot_angle_cos i * V2_len - state.spot_angle_sin i * V1_len
    if distance_closest_point > cube_radius then false else true

/-- The radial sphere test of `cluster_lights_cpu` for point light `i`:
`radial_dist_sqr <= (point_size + cube_radius)^2`. -/
def point_test (state : CPUGlobalAccelState) (cube_center : Vec3) (cube_radius : ℚ)
    (i : Nat) : Bool :=
  let cube_center_dist := cube_center - state.point_position i
  let radial_dist_sqr := Vec3.dot cube_center_dist cube_center_dist
  let cutoff := (state.point_size i + cube_radius) * (state.point_size i + cube_radius)
  decide (radial_dist_sqr ≤ cutoff)

/-- `LightClusterer::cluster_lights_cpu`: its two while-loops visit each
set bit of `pre_mask` once in ascending order (`trailing_zeroes`) and OR
into the result exactly the bits whose overlap test passes; as sets of
light indices this is a filter of the pre-mask components. -/
def cluster_lights_cpu (state : CPUGlobalAccelState) (local_state : CPULocalAccelState)
    (x y z : ℤ) (scale : ℚ) (pre_mask : ClusterMask) : ClusterMask :=
  let cube_center := cellCenter state local_state x y z scale
  let cube_radius := cellRadius local_state scale
  ⟨pre_mask.spot.filter (fun i => spot_test state cube_center cube_radius i = true),
   pre_mask.point.filter (fun i => point_test state cube_center cube_radius i = true)⟩

/-- Modelled from the spec: `ClusterPrepassDownsample` is declared in
`clusterer.hpp`, which is not among the sources here; the fine loops of
`build_cluster_cpu` iterate `sz` over `0..3` per coarse step and the task
grain is described as four slices, fixing it to 4. -/
def ClusterPrepassDownsample : Nat := 4

/-- The coarse (block) test of `build_cluster_cpu`: one
`cluster_lights_cpu` call at scale `ClusterPrepassDownsample` with the
full pre-mask of the block. -/
def build_coarse (state : CPUGlobalAccelState) (local_state : CPULocalAccelState)
    (cx cy cz : ℤ) (pre_mask : ClusterMask) : ClusterMask :=
  cluster_lights_cpu state local_state cx cy cz (ClusterPrepassDownsample : ℚ) pre_mask

/-- The fine (cell) test of `build_cluster_cpu`: `cluster_lights_cpu` at
scale 1 on cell `(sx, sy, sz + cz)`, fed the containing block's result
(`final_res = cluster_lights_cpu(sx, sy, sz + cz, ..., 1.0f, res)`). -/
def build_fine (state : CPUGlobalAccelState) (local_state : CPULocalAccelState)
    (cx cy cz sx sy sz : ℤ) (pre_mask : ClusterMask) : ClusterMask :=
  cluster_lights_cpu state local_state sx sy (sz + cz) 1
    (build_coarse state local_state cx cy cz pre_mask)

theorem Vec3.sub_self (v : Vec3) : v - v = (⟨0, 0, 0⟩ : Vec3) := by
  cases v with
  | mk a b c =>
    show Vec3.sub ⟨a, b, c⟩ ⟨a, b, c⟩ = ⟨0, 0, 0⟩
    simp [Vec3.sub]

/-- C8: for a cell tested by `cluster_lights_cpu` with the light's bit
enabled in the pre-mask, a point light positioned exactly at the cell's
centre whose radius is at least the cell radius (large enough to cover the
cell) is included in the cell's point mask, while a point light whose
sphere lies strictly outside the cell's bounding sphere (squared centre
distance exceeding the squared sum of cell radius and light radius, i.e.
distance − cell radius − light radius > 0) is excluded from it. -/
theorem cluster_point_inclusion_exclusion (state : CPUGlobalAccelState)
    (local_state : CPULocalAccelState) (x y z : ℤ) (scale : ℚ) (pre_mask : ClusterMask)
    (i j : Nat)
    (hi : i ∈ pre_mask.point)
    (hcenter : state.point_position i = cellCenter state local_state x y z scale)
    (hcover : cellRadius local_state scale ≤ state.point_size i)
    (hj : j ∈ pre_mask.point)
    (hout : (state.point_size j + cellRadius local_state scale) *
        (state.point_size j + cellRadius local_state scale) <
      Vec3.dot (cellCenter state local_state x y z scale - state.point_position j)
        (cellCenter state local_state x y z scale - state.point_position j)) :
    i ∈ (cluster_lights_cpu state local_state x y z scale pre_mask).point ∧
      j ∉ (cluster_lights_cpu state local_state x y z scale pre_mask).point := by
  constructor
  · simp only [cluster_lights_cpu]
    refine Finset.mem_filter.mpr ⟨hi, ?_⟩
    simp only [point_test, hcenter, Vec3.sub_self, decide_eq_true_eq]
    have hdz : Vec3.dot ⟨0, 0, 0⟩ ⟨0, 0, 0⟩ = 0 := by
      simp [Vec3.dot]
    rw [hdz]
    exact mul_self_nonneg _
  · simp only [cluster_lights_cpu]
    intro hmem
    have htest := (Finset.mem_filter.mp hmem).2
    simp only [point_test, decide_eq_true_eq] at htest
    exact absurd htest (not_le.mpr hout)

/-- C9: the spot and point masks returned by `cluster_lights_cpu` are
subsets of the corresponding pre-mask components, and consequently in the
two-level CPU build every fine cell's light set is a subset of the set its
containing coarse block passed down: a light rejected by the coarse test
never appears in any fine cell of that block. -/
theorem cluster_cpu_hierarchical_subset (state : CPUGlobalAccelState)
    (local_state : CPULocalAccelState) (cx cy cz sx sy sz : ℤ) (pre_mask : ClusterMask) :
    (∀ (x y z : ℤ) (scale : ℚ) (m : ClusterMask),
      (cluster_lights_cpu state local_state x y z scale m).spot ⊆ m.spot ∧
      (cluster_lights_cpu state local_state x y z scale m).point ⊆ m.point) ∧
    (build_fine state local_state cx cy cz sx sy sz pre_mask).spot ⊆
      (build_coarse state local_state cx cy cz pre_mask).spot ∧
    (build_fine state local_state cx cy cz sx sy sz pre_mask).point ⊆
      (build_coarse state local_state cx cy cz pre_mask).point ∧
    (∀ i, i ∉ (build_coarse state local_state cx cy cz pre_mask).point →
      i ∉ (build_fine state local_state cx cy cz sx sy sz pre_mask).point) ∧
    (∀ i, i ∉ (build_coarse state local_state cx cy cz pre_mask).spot →
      i ∉ (build_fine state local_state cx cy cz sx sy sz pre_mask).spot) := by
  have hsub : ∀ (x y z : ℤ) (scale : ℚ) (m : ClusterMask),
      (cluster_lights_cpu state local_state x y z scale m).spot ⊆ m.spot ∧
      (cluster_lights_cpu state local_state x y z scale m).point ⊆ m.point := by
    intro x y z scale m
    exact ⟨Finset.filter_subset _ _, Finset.filter_subset _ _⟩
  refine ⟨hsub, ?_, ?_, ?_, ?_⟩
  · exact (hsub _ _ _ _ _).1
  · exact (hsub _ _ _ _ _).2
  · intro i hic hif
    exact hic ((hsub _ _ _ _ _).2 hif)
  · intro i hic hif
    exact hic ((hsub _ _ _ _ _).1 hif)

theorem Vec3.add_def (a b : Vec3) : a + b = ⟨a.x + b.x, a.y + b.y, a.z + b.z⟩ := rfl

theorem Vec3.sub_def (a b : Vec3) : a - b = ⟨a.x - b.x, a.y - b.y, a.z - b.z⟩ := rfl

theorem Vec3.mul_def (a b : Vec3) : a * b = ⟨a.x * b.x, a.y * b.y, a.z * b.z⟩ := rfl

/-- The identity `mat4`. -/
def idMat4 : Mat4 := ⟨1, 0, 0, 0, 0, 1, 0, 0, 0, 0, 1, 0, 0, 0, 0, 1⟩

/-- A concrete acceleration state: identity cluster transform, unit
resolution, point light 0 sitting at the centre of cell (0,0,0) and point
light 1 far away at x = 100. -/
def cpuWitState : CPUGlobalAccelState where
  inverse_cluster_transform := idMat4
  inv_res := ⟨1, 1, 1⟩
  radius := 1
  spot_position := fun _ => ⟨0, 0, 0⟩
  spot_direction := fun _ => ⟨0, 0, 1⟩
  spot_size := fun _ => 1
  spot_angle_cos := fun _ => 1
  spot_angle_sin := fun _ => 0
  point_position := fun i => if i = 0 then ⟨0, 0, 1/4⟩ else ⟨100, 0, 0⟩
  point_size := fun _ => 1
  sqrtQ := fun _ => 0

/-- Slice state of cascade 0: unit world scale, no z bias, unit radius. -/
def cpuWitLocal : CPULocalAccelState := ⟨1, 0, 1⟩

theorem cellCenter_wit : cellCenter cpuWitState cpuWitLocal 0 0 0 1 = ⟨0, 0, 1/4⟩ := by
  simp only [cellCenter, cpuWitState, cpuWitLocal, idMat4, Mat4.applyPoint, Vec3.scale,
    Vec3.add_def, Vec3.mul_def]
  norm_num

theorem cluster_point_inclusion_exclusion_app :
    0 ∈ (cluster_lights_cpu cpuWitState cpuWitLocal 0 0 0 1
        ⟨∅, ({0, 1} : Finset Nat)⟩).point ∧
      1 ∉ (cluster_lights_cpu cpuWitState cpuWitLocal 0 0 0 1
        ⟨∅, ({0, 1} : Finset Nat)⟩).point := by
  apply cluster_point_inclusion_exclusion cpuWitState cpuWitLocal 0 0 0 1
    ⟨∅, ({0, 1} : Finset Nat)⟩ 0 1
  · decide
  · rw [cellCenter_wit]
    simp [cpuWitState]
  · simp only [cellRadius, cpuWitState, cpuWitLocal]
    norm_num
  · decide
  · rw [cellCenter_wit]
    simp only [cellRadius, cpuWitState, cpuWitLocal, Vec3.sub_def, Vec3.dot]
    norm_num

theorem cluster_cpu_hierarchical_subset_app :
    (5 : Nat) ∉ (build_fine cpuWitState cpuWitLocal 0 0 0 0 0 0 ⟨∅, ∅⟩).point :=
  (cluster_cpu_hierarchical_subset cpuWitState cpuWitLocal 0 0 0 0 0 0 ⟨∅, ∅⟩).2.2.2.1 5
    (by simp [build_coarse, cluster_lights_cpu])

end Granite
